import Mathlib

/-!
Shallow embedding of the regexUtils JavaScript library (src/regexUtils.js)
and verification of its specification claims.

Strings are modelled as `List Char` (Unicode scalar values; all inputs used
in this development lie in the Basic Multilingual Plane, where JavaScript
UTF-16 code units and code points coincide).  Each JavaScript regular
expression is translated to an executable Lean function on `List Char`;
a comment above each function records the regex it denotes and, where the
translation is not purely structural, why the denotation is equivalent.

Unicode character categories (`\p{L}`, `\p{Lu}`, `\p{Ll}`, `\p{Number}`)
are modelled on the character repertoire exercised in this development:
ASCII plus U+00DF (LATIN SMALL LETTER SHARP S, a lowercase letter) and
U+0130 (LATIN CAPITAL LETTER I WITH DOT ABOVE, an uppercase letter; its
lowercase is the two-character string `i` + U+0307 COMBINING DOT ABOVE,
and U+0307 is a combining mark, not a letter).  The JavaScript whitespace
class `\s` and the line-terminator set excluded by `.` are modelled in
full.  JavaScript case conversion (`toUpperCase`/`toLowerCase`) is
modelled as a code-point-to-string map that is the identity outside
ASCII except for the two special cases above, exactly as in JavaScript
(Unicode SpecialCasing: U+00DF uppercases to `SS`, U+0130 lowercases to
`i` + U+0307).
-/

/-- Code point of a character. -/
def cp (c : Char) : Nat := c.toNat

/-- ASCII digit, the JavaScript character class `\d` and `[0-9]`. -/
def isDig (c : Char) : Bool := decide (48 ≤ cp c ∧ cp c ≤ 57)

/-- ASCII uppercase letter `[A-Z]`. -/
def isUcAscii (c : Char) : Bool := decide (65 ≤ cp c ∧ cp c ≤ 90)

/-- ASCII lowercase letter `[a-z]`. -/
def isLcAscii (c : Char) : Bool := decide (97 ≤ cp c ∧ cp c ≤ 122)

/-- ASCII letter `[a-zA-Z]`. -/
def isAlphaA (c : Char) : Bool := isUcAscii c || isLcAscii c

/-- The JavaScript whitespace class `\s`: tab, line feed, vertical tab,
form feed, carriage return, space, no-break space, Ogham space mark,
the U+2000..U+200A spaces, line and paragraph separators, narrow
no-break space, medium mathematical space, ideographic space, BOM. -/
def isJsWs (c : Char) : Bool :=
  decide (cp c ∈ ([9, 10, 11, 12, 13, 32, 160, 5760] : List Nat) ∨
    (8192 ≤ cp c ∧ cp c ≤ 8202) ∨
    cp c ∈ ([8232, 8233, 8239, 8287, 12288, 65279] : List Nat))

/-- The JavaScript line terminators, which the dot `.` does not match:
LF, CR, LINE SEPARATOR, PARAGRAPH SEPARATOR. -/
def isLineTerm (c : Char) : Bool := decide (cp c ∈ ([10, 13, 8232, 8233] : List Nat))

/-- Unicode letter category `\p{L}` restricted to the repertoire of this
development: ASCII letters plus U+00DF. -/
def isLetterCat (c : Char) : Bool :=
  isAlphaA c || decide (cp c = 223) || decide (cp c = 304)

/-- Unicode category `\p{Number}` restricted to the repertoire of this
development: the ASCII digits. -/
def isNumberCat (c : Char) : Bool := isDig c

/-- Unicode category `\p{Lu}` restricted to the repertoire of this
development: ASCII uppercase letters. -/
def isLuCat (c : Char) : Bool := isUcAscii c || decide (cp c = 304)

/-- Unicode category `\p{Ll}` restricted to the repertoire of this
development: ASCII lowercase letters plus U+00DF. -/
def isLlCat (c : Char) : Bool := isLcAscii c || decide (cp c = 223)

/-- A single pass/fail requirement as produced by the itemized validators
(`{ met, message }` in the source). -/
structure Requirement where
  met : Bool
  message : String
deriving DecidableEq

/-- The result record of the itemized validators
(`{ isValid, requirements }` in the source). -/
structure ValidationResult where
  isValid : Bool
  requirements : List Requirement
deriving DecidableEq

/-- The `met` flag of requirement number `i` (0-based) of a result. -/
def reqMet (v : ValidationResult) (i : Nat) : Bool :=
  (v.requirements.getD i ⟨false, ""⟩).met

/-! ## Email validator (`validateEmail`)

Source regex: `^[a-zA-Z0-9._%+-]{1,64}@[a-zA-Z0-9.-]+\.[a-zA-Z]{2,63}$`.
The pattern is an anchored concatenation of bounded character-class
repetitions and the literals `@` and `.`; a JavaScript regex engine with
backtracking accepts a string exactly when some decomposition into the
successive pieces exists.  We realise that existential directly: the
function below searches over all positions of the literal `@` and of the
literal `.` separating domain from TLD. -/

/-- Character class of the local part: `[a-zA-Z0-9._%+-]`. -/
def isLocalChar (c : Char) : Bool :=
  isAlphaA c || isDig c || decide (c ∈ (['.', '_', '%', '+', '-'] : List Char))

/-- Character class of the domain: `[a-zA-Z0-9.-]`. -/
def isDomainChar (c : Char) : Bool :=
  isAlphaA c || isDig c || decide (c ∈ (['.', '-'] : List Char))

/-- All splits of `s` as `a ++ sep :: b`, in order of the position of `sep`. -/
def splitsOn (sep : Char) : List Char → List (List Char × List Char)
  | [] => []
  | x :: xs =>
    (if x = sep then [(([] : List Char), xs)] else []) ++
      (splitsOn sep xs).map (fun p => (x :: p.1, p.2))

theorem mem_splitsOn (sep : Char) (s a b : List Char) :
    (a, b) ∈ splitsOn sep s ↔ s = a ++ sep :: b := by
  induction s generalizing a with
  | nil =>
    simp only [splitsOn, List.not_mem_nil, false_iff]
    intro h
    cases a <;> simp_all
  | cons x xs ih =>
    simp only [splitsOn, List.mem_append, List.mem_map]
    constructor
    · rintro (h | ⟨p, hp, he⟩)
      · by_cases hx : x = sep
        · rw [if_pos hx] at h
          simp only [List.mem_cons, List.not_mem_nil, or_false, Prod.mk.injEq] at h
          obtain ⟨h1, h2⟩ := h
          subst h1
          subst h2
          simp [hx]
        · simp [hx] at h
      · injection he with h1 h2
        subst h1; subst h2
        simp [(ih p.1).mp hp]
    · intro h
      cases a with
      | nil =>
        left
        simp only [List.nil_append] at h
        injection h with h1 h2
        simp [h1, h2]
      | cons a0 a1 =>
        right
        simp only [List.cons_append] at h
        injection h with h1 h2
        subst h1
        exact ⟨(a1, b), (ih a1).mpr h2, rfl⟩

/-- Local-part test: `[a-zA-Z0-9._%+-]{1,64}`. -/
def localOK (l : List Char) : Bool :=
  decide (1 ≤ l.length) && decide (l.length ≤ 64) && l.all isLocalChar

/-- Domain test: `[a-zA-Z0-9.-]+`. -/
def domainOK (d : List Char) : Bool := decide (1 ≤ d.length) && d.all isDomainChar

/-- TLD test: `[a-zA-Z]{2,63}`. -/
def tldOK (t : List Char) : Bool :=
  decide (2 ≤ t.length) && decide (t.length ≤ 63) && t.all isAlphaA

/-- `validateEmail` from the source: false for the empty string (and for
non-string input, which is outside this string model), else the anchored
regex test. -/
def validateEmail (s : List Char) : Bool :=
  if s = [] then false
  else
    (splitsOn '@' s).any fun p =>
      localOK p.1 && (splitsOn '.' p.2).any fun q => domainOK q.1 && tldOK q.2

/-- The shape demanded by the specification: the whole string decomposes as
local-part, `@`, domain, `.`, TLD with the stated character classes and
length bounds. -/
def EmailShape (s : List Char) : Prop :=
  ∃ l d t : List Char,
    s = l ++ '@' :: (d ++ '.' :: t) ∧
    1 ≤ l.length ∧ l.length ≤ 64 ∧ (∀ c ∈ l, isLocalChar c) ∧
    1 ≤ d.length ∧ (∀ c ∈ d, isDomainChar c) ∧
    2 ≤ t.length ∧ t.length ≤ 63 ∧ (∀ c ∈ t, isAlphaA c)

theorem validateEmail_iff_emailShape (s : List Char) :
    validateEmail s = true ↔ EmailShape s := by
  unfold validateEmail
  by_cases hs : s = []
  · subst hs
    rw [if_pos rfl]
    simp only [Bool.false_eq_true, false_iff]
    rintro ⟨l, d, t, h, -⟩
    cases l <;> simp_all
  · rw [if_neg hs]
    simp only [List.any_eq_true, Bool.and_eq_true, localOK, domainOK, tldOK,
      decide_eq_true_eq, List.all_eq_true]
    constructor
    · rintro ⟨p, hp, ⟨⟨hl1, hl2⟩, hl3⟩, q, hq, ⟨⟨hd1, hd2⟩, ⟨ht1, ht2⟩, ht3⟩⟩
      refine ⟨p.1, q.1, q.2, ?_, hl1, hl2, hl3, hd1, hd2, ht1, ht2, ht3⟩
      rw [(mem_splitsOn '@' s p.1 p.2).mp hp, (mem_splitsOn '.' p.2 q.1 q.2).mp hq]
    · rintro ⟨l, d, t, hdec, hl1, hl2, hl3, hd1, hd2, ht1, ht2, ht3⟩
      refine ⟨(l, d ++ '.' :: t), (mem_splitsOn '@' s l _).mpr hdec,
        ⟨⟨hl1, hl2⟩, hl3⟩, (d, t), (mem_splitsOn '.' _ d t).mpr rfl,
        ⟨⟨hd1, hd2⟩, ⟨ht1, ht2⟩, ht3⟩⟩

/-- C8: `validateEmail` returns true iff the whole input decomposes as
local-part `@` domain `.` tld with the stated character classes and
length bounds (1-64 local characters, nonempty domain, 2-63 letter TLD);
the empty string is rejected, `user@domain.com` accepted,
`invalid@domain` rejected.  (Non-string input, rejected by the source's
`typeof` guard, is outside this string model.) -/
theorem email_validation_contract :
    (∀ s : List Char, validateEmail s = true ↔ EmailShape s) ∧
    validateEmail ("user@domain.com".data) = true ∧
    validateEmail ("invalid@domain".data) = false ∧
    validateEmail ("".data) = false :=
  ⟨validateEmail_iff_emailShape, by decide, by decide, by decide⟩

/-! ## International phone validator (`validateInternationalPhoneNumber`)

The five requirement regexes of the source, in order:
1. `^(\+|00)` — has a country-code marker;
2. `^(\+|00)[0-9\s\-\(\)]{6,14}[0-9]$` — overall length;
3. `^(\+|00)[0-9\s\-\(\)]*$` — charset;
4. `^(\+|00)(1|254|255|44|91|61|234|55|49|81)\d` — recognized calling code;
5. a placeholder that the function overwrites from the country table.

Country-code extraction uses `^(\+|00)(\d{1,3})` (greedy: up to three
digits immediately after the marker), the national number is
`phone.replace(/[^\d]/g, '').slice(countryCode.length)` — note that the
digit string is taken from the whole input, so a `00` marker contributes
two leading zeros to it. -/

/-- The marker alternation `(\+|00)` at the start: returns the rest of the
string after the marker, if present.  The two branches are mutually
exclusive, so backtracking plays no role. -/
def stripCC : List Char → Option (List Char)
  | '+' :: r => some r
  | '0' :: '0' :: r => some r
  | _ => none

/-- The phone body class `[0-9\s\-\(\)]`. -/
def isPhoneBodyChar (c : Char) : Bool :=
  isDig c || isJsWs c || decide (cp c ∈ ([45, 40, 41] : List Nat))

/-- Whether a string is nonempty and its last character is an ASCII digit. -/
def endsInDigit (l : List Char) : Bool :=
  match l.getLast? with
  | some c => isDig c
  | none => false

/-- Requirement 2 regex `^(\+|00)[0-9\s\-\(\)]{6,14}[0-9]$`: after the
marker, 6 to 14 body characters followed by one digit.  Because the digit
class is contained in the body class, a string of body characters matches
`[body]{6,14}[0-9]$` exactly when its length is between 7 and 15 and its
last character is a digit. -/
def lengthRegex (s : List Char) : Bool :=
  match stripCC s with
  | some r =>
    decide (7 ≤ r.length) && decide (r.length ≤ 15) && r.all isPhoneBodyChar &&
      endsInDigit r
  | none => false

/-- Requirement 3 regex `^(\+|00)[0-9\s\-\(\)]*$`. -/
def charsetRegex (s : List Char) : Bool :=
  match stripCC s with
  | some r => r.all isPhoneBodyChar
  | none => false

/-- The ten recognized calling codes, in the order of the source
alternation `(1|254|255|44|91|61|234|55|49|81)`. -/
def tenCodes : List (List Char) :=
  [['1'], ['2', '5', '4'], ['2', '5', '5'], ['4', '4'], ['9', '1'],
   ['6', '1'], ['2', '3', '4'], ['5', '5'], ['4', '9'], ['8', '1']]

/-- Whether `r` begins with the digits of `code` followed by one more
digit (`<code>\d` after the marker). -/
def startsCodeDigit (code r : List Char) : Bool :=
  decide (r.take code.length = code) &&
    (match (r.drop code.length).head? with
     | some c => isDig c
     | none => false)

/-- Requirement 4 regex `^(\+|00)(1|254|255|44|91|61|234|55|49|81)\d`.
The regex is unanchored at the right, so it accepts exactly when some
alternative (in any order) is a prefix of the rest and is followed by a
digit. -/
def codeRegex (s : List Char) : Bool :=
  match stripCC s with
  | some r => tenCodes.any fun code => startsCodeDigit code r
  | none => false

/-- Country-code extraction `phone.match(/^(\+|00)(\d{1,3})/)`: the greedy
run of at most three digits immediately after the marker; fails when no
digit follows the marker. -/
def ccOf (s : List Char) : Option (List Char) :=
  match stripCC s with
  | some r =>
    match (r.takeWhile isDig).take 3 with
    | [] => none
    | ds => some ds
  | none => none

/-- One entry of the numbering-plan table: admissible national-number
lengths and the mobile-prefix list (`length` and `mobilePrefixes`). -/
structure CCRule where
  lens : List Nat
  mobs : List (List Char)
deriving DecidableEq

/-- The source's `countryRules` object as an association list. -/
def ccTable : List (List Char × CCRule) :=
  [(['1'], ⟨[10],
      [['2','0','2'], ['2','1','2'], ['3','1','0'], ['4','0','8'], ['4','1','5'],
       ['5','1','0'], ['6','5','0'], ['2','1','3'], ['3','2','3'], ['4','2','4'],
       ['6','1','9'], ['7','0','7'], ['8','0','5'], ['8','1','8'], ['8','3','1'],
       ['8','5','8'], ['9','0','9'], ['9','1','6'], ['9','2','5'], ['9','4','9']]⟩),
   (['2','5','4'], ⟨[9],
      [['7','0'], ['7','1'], ['7','2'], ['7','3'], ['7','4'], ['7','5'], ['7','6'],
       ['7','7'], ['7','8'], ['7','9']]⟩),
   (['2','5','5'], ⟨[9],
      [['6','5'], ['6','7'], ['6','8'], ['6','9'], ['7','1'], ['7','3'], ['7','4'],
       ['7','5'], ['7','6'], ['7','7'], ['7','8'], ['7','9']]⟩),
   (['4','4'], ⟨[10], [['7','4'], ['7','5'], ['7','7'], ['7','8'], ['7','9']]⟩),
   (['9','1'], ⟨[10], [['6'], ['7'], ['8'], ['9']]⟩),
   (['6','1'], ⟨[9], [['4']]⟩),
   (['2','3','4'], ⟨[10], [['7','0'], ['8','0'], ['8','1'], ['9','0'], ['9','1']]⟩),
   (['5','5'], ⟨[10, 11], [['6'], ['7'], ['8'], ['9']]⟩),
   (['4','9'], ⟨[10, 11], [['1','5'], ['1','6'], ['1','7']]⟩),
   (['8','1'], ⟨[10], [['7','0'], ['8','0'], ['9','0']]⟩)]

/-- Exact-key lookup in `countryRules`. -/
def ruleFor (cc : List Char) : Option CCRule :=
  (ccTable.find? fun p => decide (p.1 = cc)).map (·.2)

/-- The five requirement messages, in source order. -/
def phoneMsgs : List String :=
  ["Must include country code (+ or 00)",
   "Valid length for the country",
   "Only digits, spaces, hyphens, or parentheses allowed",
   "Valid country code (e.g., +1, +254, +44)",
   "Valid mobile prefix for the country (if applicable)"]

/-- Build the five-requirement list from the five met flags. -/
def mkPhoneReqs (b0 b1 b2 b3 b4 : Bool) : List Requirement :=
  [⟨b0, "Must include country code (+ or 00)"⟩,
   ⟨b1, "Valid length for the country"⟩,
   ⟨b2, "Only digits, spaces, hyphens, or parentheses allowed"⟩,
   ⟨b3, "Valid country code (e.g., +1, +254, +44)"⟩,
   ⟨b4, "Valid mobile prefix for the country (if applicable)"⟩]

/-- `validateInternationalPhoneNumber` from the source.  The empty string
(and non-string input, outside this model) takes the early return with all
five flags false.  Otherwise the four regex requirements are tested, the
country code is extracted, and requirement flags 2 and 5 are adjusted
from the numbering-plan table exactly as in the source; `isValid` is the
conjunction `requirements.every(req => req.met)`. -/
def validateInternationalPhoneNumber (s : List Char) : ValidationResult :=
  if s = [] then ⟨false, mkPhoneReqs false false false false false⟩
  else
    let b0 := (stripCC s).isSome
    let b1r := lengthRegex s
    let b2 := charsetRegex s
    let b3 := codeRegex s
    match ccOf s with
    | none =>
      let reqs := mkPhoneReqs b0 false b2 b3 true
      ⟨reqs.all (·.met), reqs⟩
    | some cc =>
      let natNum := (s.filter isDig).drop cc.length
      match ruleFor cc with
      | some ru =>
        let okLen := decide (natNum.length ∈ ru.lens)
        let b4 := decide (natNum.take (ru.mobs.headD []).length ∈ ru.mobs)
        let reqs := mkPhoneReqs b0 (b1r && okLen) b2 b3 b4
        ⟨reqs.all (·.met), reqs⟩
      | none =>
        let okLen := decide (6 ≤ natNum.length) && decide (natNum.length ≤ 14)
        let reqs := mkPhoneReqs b0 (b1r && okLen) b2 b3 true
        ⟨reqs.all (·.met), reqs⟩

/-! ## Password validators

`checkPasswordComplexity` uses the single regex
`^(?!\s)(?=\p{Lu}.*)(?=\p{Ll}.*)(?=\p{Number}.*)(?=[^\p{Letter}\p{Number}].*).{8,}$`
with the `u` flag.  Each lookahead is evaluated at position 0, and its
body starts with a one-character class, so each lookahead succeeds
exactly when the FIRST character of the string belongs to that class
(the trailing `.*` may match the empty string).  `.{8,}$` demands at
least 8 characters, none of which is a line terminator.

`checkPasswordStrength` instead tests six separate regexes:
`.{8,}`, `\p{Lu}`, `\p{Ll}`, `\p{Number}`, `[^\p{Letter}\p{Number}\s]`
(all with `u`), and `^(?!\s).*(?<!\s)$` (no `u` flag; since `.` cannot
cross a line terminator and `$` only matches at the very end, this last
regex accepts exactly the strings with no line terminator whose first and
last characters are not whitespace, and the empty string). -/

/-- `checkPasswordComplexity` from the source, a faithful reading of its
regex: the first character would have to lie simultaneously in `\p{Lu}`,
`\p{Ll}`, `\p{Number}` and in the complement of
`[\p{Letter}\p{Number}]`. -/
def checkPasswordComplexity (s : List Char) : Bool :=
  match s with
  | [] => false
  | c :: _ =>
    !isJsWs c && isLuCat c && isLlCat c && isNumberCat c &&
      !(isLetterCat c || isNumberCat c) &&
      decide (8 ≤ s.length) && s.all fun d => !isLineTerm d

/-- The unanchored test `.{8,}`: some run of at least 8 consecutive
non-line-terminator characters.  `run8 s n` scans `s` with `n` the length
of the current run of non-line-terminator characters. -/
def run8 : List Char → Nat → Bool
  | [], acc => decide (8 ≤ acc)
  | c :: cs, acc =>
    if isLineTerm c then decide (8 ≤ acc) || run8 cs 0 else run8 cs (acc + 1)

/-- Regex 6 of `checkPasswordStrength`, `^(?!\s).*(?<!\s)$`: no line
terminator anywhere, first and last characters not whitespace (vacuously
true for the empty string). -/
def noEdgeWs (s : List Char) : Bool :=
  s.all (fun c => !isLineTerm c) &&
    (match s.head? with
     | some c => !isJsWs c
     | none => true) &&
    (match s.getLast? with
     | some c => !isJsWs c
     | none => true)

/-- The six requirement messages of `checkPasswordStrength`. -/
def mkPwReqs (b0 b1 b2 b3 b4 b5 : Bool) : List Requirement :=
  [⟨b0, "At least 8 characters"⟩,
   ⟨b1, "At least one uppercase letter"⟩,
   ⟨b2, "At least one lowercase letter"⟩,
   ⟨b3, "At least one digit"⟩,
   ⟨b4, "At least one special character"⟩,
   ⟨b5, "No leading or trailing whitespace"⟩]

/-- `checkPasswordStrength` from the source: the empty string (and
non-string input, outside this model) takes the early return with all six
flags false; otherwise each regex is tested independently and `isValid`
is `requirements.every(req => req.met)`. -/
def checkPasswordStrength (s : List Char) : ValidationResult :=
  if s = [] then ⟨false, mkPwReqs false false false false false false⟩
  else
    let reqs := mkPwReqs
      (run8 s 0)
      (s.any isLuCat)
      (s.any isLlCat)
      (s.any isNumberCat)
      (s.any fun c => !(isLetterCat c || isNumberCat c || isJsWs c))
      (noEdgeWs s)
    ⟨reqs.all (·.met), reqs⟩

/-- The six requirement messages of `checkPasswordStrength`, in source
order. -/
def pwMsgs : List String :=
  ["At least 8 characters",
   "At least one uppercase letter",
   "At least one lowercase letter",
   "At least one digit",
   "At least one special character",
   "No leading or trailing whitespace"]

/-- C1 (code bug): `checkPasswordComplexity` returns false on EVERY
string — in particular on the failing input `Pass123!@#`, which the
specification, the function's documentation and the source's own test
comment all expect to be accepted.  The regex anchors every lookahead at
position 0, so the first character would have to be simultaneously an
uppercase letter, a lowercase letter, a digit and a non-alphanumeric
character, which is impossible (the written intent was `(?=.*\p{Lu})`
and so on). -/
theorem checkPasswordComplexity_always_false :
    (∀ s : List Char, checkPasswordComplexity s = false) ∧
    checkPasswordComplexity ("Pass123!@#".data) = false := by
  have h : ∀ s : List Char, checkPasswordComplexity s = false := by
    intro s
    cases s with
    | nil => rfl
    | cons c cs => cases hn : isNumberCat c <;> simp [checkPasswordComplexity, hn]
  exact ⟨h, h _⟩

/-- C5: for every string input (the early returns for empty input
included; non-string input takes the same early return in the source),
the `isValid` field of the results of `validateInternationalPhoneNumber`
and of `checkPasswordStrength` equals the conjunction of the `met` flags
of their requirement lists. -/
theorem isValid_iff_all_requirements_met :
    ∀ s : List Char,
      (validateInternationalPhoneNumber s).isValid =
        (validateInternationalPhoneNumber s).requirements.all (·.met) ∧
      (checkPasswordStrength s).isValid =
        (checkPasswordStrength s).requirements.all (·.met) := by
  intro s
  constructor
  · unfold validateInternationalPhoneNumber
    split
    · rfl
    · split
      · rfl
      · split <;> rfl
  · unfold checkPasswordStrength
    split <;> rfl

/-- C9: for every string input, `validateInternationalPhoneNumber`
returns exactly the same five requirement messages in the same fixed
order, and `checkPasswordStrength` exactly the same six, regardless of
the input (the early return for empty — and, in the source, non-string —
input produces the same lists). -/
theorem requirement_messages_fixed :
    ∀ s : List Char,
      (validateInternationalPhoneNumber s).requirements.map (·.message) = phoneMsgs ∧
      (checkPasswordStrength s).requirements.map (·.message) = pwMsgs := by
  intro s
  constructor
  · unfold validateInternationalPhoneNumber
    split
    · rfl
    · split
      · rfl
      · split <;> rfl
  · unfold checkPasswordStrength
    split <;> rfl

/-! ## Phone formatter (`formatPhoneNumber`)

Pipeline of the source, in order: `replace(/^00/, '+')`, then
`replace(/[\s\-\(\)]/g, '')`, then the `startsWith('+')` guard, then the
anchored test `^(\+)[0-9]{6,15}$`; empty (and non-string) input returns
the empty string. -/

/-- The stripped class `[\s\-\(\)]`. -/
def isStripChar (c : Char) : Bool :=
  isJsWs c || decide (cp c ∈ ([45, 40, 41] : List Nat))

/-- `replace(/^00/, '+')`: a leading `00` becomes `+`. -/
def replace00 : List Char → List Char
  | '0' :: '0' :: r => '+' :: r
  | s => s

/-- Steps (a) and (b) of the formatter: `00`-to-`+` then stripping. -/
def normalizePhone (s : List Char) : List Char :=
  (replace00 s).filter fun c => !isStripChar c

/-- The anchored test `^(\+)[0-9]{6,15}$` (which subsumes the
`startsWith('+')` guard). -/
def plusShape (f : List Char) : Bool :=
  match f with
  | '+' :: r => decide (6 ≤ r.length) && decide (r.length ≤ 15) && r.all isDig
  | _ => false

/-- `formatPhoneNumber` from the source. -/
def formatPhoneNumber (s : List Char) : List Char :=
  if s = [] then []
  else if plusShape (normalizePhone s) then normalizePhone s else []

/-- The specification's description of an acceptable normalized string:
`+` followed by 6 to 15 digits. -/
def PlusDigits (f : List Char) : Prop :=
  ∃ ds : List Char, f = '+' :: ds ∧ 6 ≤ ds.length ∧ ds.length ≤ 15 ∧ ∀ c ∈ ds, isDig c

theorem plusShape_iff (f : List Char) : plusShape f = true ↔ PlusDigits f := by
  constructor
  · intro h
    unfold plusShape at h
    split at h
    · rename_i r
      simp only [Bool.and_eq_true, decide_eq_true_eq, List.all_eq_true] at h
      exact ⟨r, rfl, h.1.1, h.1.2, h.2⟩
    · cases h
  · rintro ⟨ds, rfl, h1, h2, h3⟩
    simp only [plusShape, Bool.and_eq_true, decide_eq_true_eq, List.all_eq_true]
    exact ⟨⟨h1, h2⟩, h3⟩

theorem isStripChar_eq_false_of_isDig (c : Char) (h : isDig c = true) :
    isStripChar c = false := by
  simp only [isDig, decide_eq_true_eq] at h
  simp [isStripChar, isJsWs]
  omega

theorem filter_strip_of_digits (r : List Char) (h : r.all isDig = true) :
    (r.filter fun c => !isStripChar c) = r := by
  refine List.filter_eq_self.mpr fun c hc => ?_
  rw [isStripChar_eq_false_of_isDig c (List.all_eq_true.mp h c hc)]
  rfl

/-- C7: the formatter follows exactly the specified pipeline: a leading
`00` is replaced by `+`, the characters of `[\s\-\(\)]` are stripped, and
the result is returned exactly when it is `+` followed by 6-15 digits
(which includes the starts-with-`+` guard), else the empty string; empty
(and, in the source, non-string) input yields the empty string, and the
two specification examples evaluate as stated. -/
theorem formatPhoneNumber_contract :
    (∀ s : List Char,
      formatPhoneNumber s =
        if plusShape (normalizePhone s) then normalizePhone s else []) ∧
    (∀ f : List Char, plusShape f = true ↔ PlusDigits f) ∧
    formatPhoneNumber ("+1 (202) 555-0123".data) = "+12025550123".data ∧
    formatPhoneNumber ("123456".data) = [] ∧
    formatPhoneNumber ([] : List Char) = [] := by
  refine ⟨fun s => ?_, plusShape_iff, by decide, by decide, rfl⟩
  by_cases hs : s = []
  · subst hs
    rfl
  · rw [formatPhoneNumber, if_neg hs]

/-- C10: `formatPhoneNumber` is idempotent; every nonempty output is `+`
followed by 6-15 digits, which the formatter passes through unchanged,
and the empty string maps to itself. -/
theorem formatPhoneNumber_idempotent :
    ∀ s : List Char, formatPhoneNumber (formatPhoneNumber s) = formatPhoneNumber s := by
  intro s
  by_cases hs : formatPhoneNumber s = []
  · rw [hs]
    rfl
  · have hshape : plusShape (formatPhoneNumber s) = true := by
      by_cases hn : s = []
      · exact absurd (by rw [hn]; rfl) hs
      · rw [formatPhoneNumber, if_neg hn] at hs ⊢
        split at hs
        · rename_i hp
          rw [if_pos hp]
          exact hp
        · exact absurd rfl hs
    obtain ⟨ds, he, h1, h2, h3⟩ := (plusShape_iff _).mp hshape
    have hp2 : plusShape ('+' :: ds) = true := he ▸ hshape
    have hall : ds.all isDig = true := List.all_eq_true.mpr h3
    have hnorm : normalizePhone ('+' :: ds) = '+' :: ds := by
      show (replace00 ('+' :: ds)).filter (fun c => !isStripChar c) = '+' :: ds
      rw [show replace00 ('+' :: ds) = '+' :: ds from rfl,
        List.filter_cons_of_pos (p := fun c => !isStripChar c) (by decide),
        filter_strip_of_digits ds hall]
    rw [he]
    unfold formatPhoneNumber
    rw [if_neg (by simp), hnorm, if_pos hp2]

/-- The country-length part of requirement 2: the country-code extraction
must succeed, and the digit-only national number (all digits of the
input minus the leading `countryCode.length` of them) must have a length
listed in the numbering-plan table for a recognized code, or lie in 6-14
for an unrecognized one. -/
def natLenOK (s : List Char) : Bool :=
  match ccOf s with
  | some cc =>
    match ruleFor cc with
    | some ru => decide (((s.filter isDig).drop cc.length).length ∈ ru.lens)
    | none =>
      decide (6 ≤ ((s.filter isDig).drop cc.length).length) &&
        decide (((s.filter isDig).drop cc.length).length ≤ 14)
  | none => false

/-- C6 counterexample: for the input `002 3456` the part after the `00`
marker consists of exactly 6 characters of the allowed class ending in a
digit, and the national-number length rule of the claim is satisfied
(unrecognized code `2`, national number of 6 digits), yet requirement 2
is NOT met: the regex `^(\+|00)[0-9\s\-\(\)]{6,14}[0-9]$` needs 6-14
class characters PLUS a final digit, i.e. at least 7 characters after
the marker, not 6. -/
theorem lengthRequirement_claim_counterexample :
    (stripCC ("002 3456".data)).isSome = true ∧
    ((stripCC ("002 3456".data)).getD []).length = 6 ∧
    ((stripCC ("002 3456".data)).getD []).all isPhoneBodyChar = true ∧
    endsInDigit ((stripCC ("002 3456".data)).getD []) = true ∧
    natLenOK ("002 3456".data) = true ∧
    reqMet (validateInternationalPhoneNumber ("002 3456".data)) 1 = false := by
  decide

/-- C6 (amended): requirement 2 of the phone validator is met exactly
when BOTH the length regex holds — after the marker, 6-14 characters of
`[0-9\s\-\(\)]` FOLLOWED BY one digit, hence 7 to 15 characters ending
in a digit — AND the country-code extraction succeeds (a digit
immediately follows the marker) with the digit-only national number
passing the length rule (the table length for a recognized extracted
code, 6-14 digits otherwise). -/
theorem lengthRequirement_met_iff :
    ∀ s : List Char,
      reqMet (validateInternationalPhoneNumber s) 1 = (lengthRegex s && natLenOK s) := by
  intro s
  by_cases hs : s = []
  · subst hs
    rfl
  · rcases hcc : ccOf s with _ | cc
    · simp [validateInternationalPhoneNumber, hcc, if_neg hs, reqMet, mkPhoneReqs, natLenOK]
    · rcases hru : ruleFor cc with _ | ru <;>
        simp [validateInternationalPhoneNumber, hcc, hru, if_neg hs, reqMet,
          mkPhoneReqs, natLenOK]

theorem isPhoneBodyChar_of_isDig (c : Char) (h : isDig c = true) :
    isPhoneBodyChar c = true := by
  simp only [isPhoneBodyChar, h, Bool.true_or]

theorem all_body_of_all_dig (l : List Char) (h : l.all isDig = true) :
    l.all isPhoneBodyChar = true := by
  refine List.all_eq_true.mpr fun c hc => ?_
  exact isPhoneBodyChar_of_isDig c (List.all_eq_true.mp h c hc)

theorem filter_dig_eq_self (l : List Char) (h : l.all isDig = true) :
    l.filter isDig = l :=
  List.filter_eq_self.mpr (List.all_eq_true.mp h)

theorem endsInDigit_cons (x : Char) (l : List Char) (h : l ≠ []) :
    endsInDigit (x :: l) = endsInDigit l := by
  unfold endsInDigit
  rw [List.getLast?_cons, List.getLast?_eq_getLast _ h]
  rfl

theorem endsInDigit_of_all (l : List Char) (hd : l.all isDig = true) (hne : l ≠ []) :
    endsInDigit l = true := by
  unfold endsInDigit
  rw [List.getLast?_eq_getLast _ hne]
  exact List.all_eq_true.mp hd _ (List.getLast_mem hne)

/-- A three-digit candidate not starting with `2` is not a key of the
table: the three-digit keys `254`, `255`, `234` all start with `2`, and
the other keys have one or two digits. -/
theorem ruleFor_len3_not2 (x y z : Char) (hx : x ≠ '2') :
    ruleFor [x, y, z] = none := by
  have h2 : ('2' = x) = False := eq_false fun h => hx h.symm
  simp [ruleFor, ccTable, List.find?, h2]

/-- Evaluation of the phone validator on `+` followed by a recognized
three-digit code and an all-digit national number: requirements 1, 3, 4
are met, requirement 2 reduces to the table length test, requirement 5
to the mobile-prefix test. -/
theorem valPhone_rec3 (a b c : Char) (nat : List Char) (ru : CCRule)
    (hda : isDig a = true) (hdb : isDig b = true) (hdc : isDig c = true)
    (hd : nat.all isDig = true)
    (h4 : 4 ≤ nat.length) (h12 : nat.length ≤ 12)
    (hru : ruleFor [a, b, c] = some ru)
    (hmem : [a, b, c] ∈ tenCodes) :
    validateInternationalPhoneNumber ('+' :: a :: b :: c :: nat) =
      ⟨(mkPhoneReqs true (decide (nat.length ∈ ru.lens)) true true
          (decide (nat.take (ru.mobs.headD []).length ∈ ru.mobs))).all (·.met),
       mkPhoneReqs true (decide (nat.length ∈ ru.lens)) true true
         (decide (nat.take (ru.mobs.headD []).length ∈ ru.mobs))⟩ := by
  have hne : nat ≠ [] := by
    intro h
    rw [h] at h4
    simp at h4
  obtain ⟨n, nt, rfl⟩ : ∃ n nt, nat = n :: nt := by
    cases nat with
    | nil => exact absurd rfl hne
    | cons n nt => exact ⟨n, nt, rfl⟩
  have hdn : isDig n = true := (List.all_cons .. ▸ hd :
    (isDig n && (nt.all isDig)) = true) |> Bool.and_elim_left
  set nat := n :: nt with hnat
  have hstrip : stripCC ('+' :: a :: b :: c :: nat) = some (a :: b :: c :: nat) := rfl
  have hccof : ccOf ('+' :: a :: b :: c :: nat) = some [a, b, c] := by
    simp [ccOf, hstrip, List.takeWhile_cons, hda, hdb, hdc]
  have hfilter : ('+' :: a :: b :: c :: nat).filter isDig = a :: b :: c :: nat := by
    have hplus : isDig '+' = false := rfl
    simp [List.filter_cons, hplus, hda, hdb, hdc, filter_dig_eq_self nat hd]
  have hlenreg : lengthRegex ('+' :: a :: b :: c :: nat) = true := by
    simp only [lengthRegex, hstrip, Bool.and_eq_true, decide_eq_true_eq]
    refine ⟨⟨⟨?_, ?_⟩, ?_⟩, ?_⟩
    · simp only [List.length_cons]
      omega
    · simp only [List.length_cons]
      omega
    · simp only [List.all_cons, Bool.and_eq_true]
      exact ⟨isPhoneBodyChar_of_isDig a hda,
        isPhoneBodyChar_of_isDig b hdb, isPhoneBodyChar_of_isDig c hdc,
        List.all_eq_true.mpr fun d hdm =>
          isPhoneBodyChar_of_isDig d (List.all_eq_true.mp hd d hdm)⟩
    · rw [endsInDigit_cons a _ (by simp), endsInDigit_cons b _ (by simp),
        endsInDigit_cons c _ (by simp)]
      exact endsInDigit_of_all nat hd hne
  have hcharset : charsetRegex ('+' :: a :: b :: c :: nat) = true := by
    simp only [charsetRegex, hstrip, List.all_cons, Bool.and_eq_true]
    exact ⟨isPhoneBodyChar_of_isDig a hda,
      isPhoneBodyChar_of_isDig b hdb, isPhoneBodyChar_of_isDig c hdc,
      List.all_eq_true.mpr fun d hdm =>
        isPhoneBodyChar_of_isDig d (List.all_eq_true.mp hd d hdm)⟩
  have hcodereg : codeRegex ('+' :: a :: b :: c :: nat) = true := by
    simp only [codeRegex, hstrip]
    refine List.any_eq_true.mpr ⟨[a, b, c], hmem, ?_⟩
    simp [startsCodeDigit, hnat, hdn]
  unfold validateInternationalPhoneNumber
  rw [if_neg (by simp)]
  rw [hccof]
  simp only [hfilter, hru, hlenreg, hcharset, hcodereg, List.length_cons,
    List.length_nil, List.drop_succ_cons, List.drop_zero]
  simp [stripCC]

/-- Evaluation of the phone validator on `+` followed by a ONE-digit
recognized code (other than `2`) and an all-digit national number: the
greedy `\d{1,3}` extraction reads the code digit together with the first
two national digits, which is not a table key, so the validator follows
the unrecognized-country path: requirement 5 is vacuously met and the
length rule is the generic 6-14 digit test on what remains after
dropping three digits. -/
theorem valPhone_unrec1 (x n1 n2 : Char) (rest : List Char)
    (hdx : isDig x = true) (hx2 : x ≠ '2')
    (hdn1 : isDig n1 = true) (hdn2 : isDig n2 = true)
    (hd : rest.all isDig = true)
    (h4 : 4 ≤ rest.length) (h12 : rest.length ≤ 12)
    (hmem : [x] ∈ tenCodes) :
    validateInternationalPhoneNumber ('+' :: x :: n1 :: n2 :: rest) =
      ⟨(mkPhoneReqs true (decide (6 ≤ rest.length) && decide (rest.length ≤ 14))
          true true true).all (·.met),
       mkPhoneReqs true (decide (6 ≤ rest.length) && decide (rest.length ≤ 14))
         true true true⟩ := by
  have hne : rest ≠ [] := by
    intro h
    rw [h] at h4
    simp at h4
  have hstrip : stripCC ('+' :: x :: n1 :: n2 :: rest) = some (x :: n1 :: n2 :: rest) := rfl
  have hccof : ccOf ('+' :: x :: n1 :: n2 :: rest) = some [x, n1, n2] := by
    simp [ccOf, hstrip, List.takeWhile_cons, hdx, hdn1, hdn2]
  have hfilter : ('+' :: x :: n1 :: n2 :: rest).filter isDig = x :: n1 :: n2 :: rest := by
    have hplus : isDig '+' = false := rfl
    simp [List.filter_cons, hplus, hdx, hdn1, hdn2, filter_dig_eq_self rest hd]
  have hbody : ∀ d ∈ rest, isPhoneBodyChar d = true := fun d hdm =>
    isPhoneBodyChar_of_isDig d (List.all_eq_true.mp hd d hdm)
  have hlenreg : lengthRegex ('+' :: x :: n1 :: n2 :: rest) = true := by
    simp only [lengthRegex, hstrip, Bool.and_eq_true, decide_eq_true_eq]
    refine ⟨⟨⟨?_, ?_⟩, ?_⟩, ?_⟩
    · simp only [List.length_cons]
      omega
    · simp only [List.length_cons]
      omega
    · simp only [List.all_cons, Bool.and_eq_true]
      exact ⟨isPhoneBodyChar_of_isDig x hdx, isPhoneBodyChar_of_isDig n1 hdn1,
        isPhoneBodyChar_of_isDig n2 hdn2, List.all_eq_true.mpr hbody⟩
    · rw [endsInDigit_cons x _ (by simp), endsInDigit_cons n1 _ (by simp),
        endsInDigit_cons n2 _ hne]
      exact endsInDigit_of_all rest hd hne
  have hcharset : charsetRegex ('+' :: x :: n1 :: n2 :: rest) = true := by
    simp only [charsetRegex, hstrip, List.all_cons, Bool.and_eq_true]
    exact ⟨isPhoneBodyChar_of_isDig x hdx, isPhoneBodyChar_of_isDig n1 hdn1,
      isPhoneBodyChar_of_isDig n2 hdn2, List.all_eq_true.mpr hbody⟩
  have hcodereg : codeRegex ('+' :: x :: n1 :: n2 :: rest) = true := by
    simp only [codeRegex, hstrip]
    refine List.any_eq_true.mpr ⟨[x], hmem, ?_⟩
    simp [startsCodeDigit, hdn1]
  unfold validateInternationalPhoneNumber
  rw [if_neg (by simp)]
  rw [hccof]
  simp only [hfilter, ruleFor_len3_not2 x n1 n2 hx2, hlenreg, hcharset, hcodereg,
    List.length_cons, List.length_nil, List.drop_succ_cons, List.drop_zero]
  simp [stripCC]

/-- Evaluation of the phone validator on `+` followed by a TWO-digit
recognized code not starting with `2` and an all-digit national number:
the greedy extraction reads the two code digits and the first national
digit, which is not a table key, so the unrecognized-country path is
taken as in `valPhone_unrec1`. -/
theorem valPhone_unrec2 (x y n1 : Char) (rest : List Char)
    (hdx : isDig x = true) (hdy : isDig y = true) (hx2 : x ≠ '2')
    (hdn1 : isDig n1 = true)
    (hd : rest.all isDig = true)
    (h4 : 4 ≤ rest.length) (h12 : rest.length ≤ 12)
    (hmem : [x, y] ∈ tenCodes) :
    validateInternationalPhoneNumber ('+' :: x :: y :: n1 :: rest) =
      ⟨(mkPhoneReqs true (decide (6 ≤ rest.length) && decide (rest.length ≤ 14))
          true true true).all (·.met),
       mkPhoneReqs true (decide (6 ≤ rest.length) && decide (rest.length ≤ 14))
         true true true⟩ := by
  have hne : rest ≠ [] := by
    intro h
    rw [h] at h4
    simp at h4
  have hstrip : stripCC ('+' :: x :: y :: n1 :: rest) = some (x :: y :: n1 :: rest) := rfl
  have hccof : ccOf ('+' :: x :: y :: n1 :: rest) = some [x, y, n1] := by
    simp [ccOf, hstrip, List.takeWhile_cons, hdx, hdy, hdn1]
  have hfilter : ('+' :: x :: y :: n1 :: rest).filter isDig = x :: y :: n1 :: rest := by
    have hplus : isDig '+' = false := rfl
    simp [List.filter_cons, hplus, hdx, hdy, hdn1, filter_dig_eq_self rest hd]
  have hbody : ∀ d ∈ rest, isPhoneBodyChar d = true := fun d hdm =>
    isPhoneBodyChar_of_isDig d (List.all_eq_true.mp hd d hdm)
  have hlenreg : lengthRegex ('+' :: x :: y :: n1 :: rest) = true := by
    simp only [lengthRegex, hstrip, Bool.and_eq_true, decide_eq_true_eq]
    refine ⟨⟨⟨?_, ?_⟩, ?_⟩, ?_⟩
    · simp only [List.length_cons]
      omega
    · simp only [List.length_cons]
      omega
    · simp only [List.all_cons, Bool.and_eq_true]
      exact ⟨isPhoneBodyChar_of_isDig x hdx, isPhoneBodyChar_of_isDig y hdy,
        isPhoneBodyChar_of_isDig n1 hdn1, List.all_eq_true.mpr hbody⟩
    · rw [endsInDigit_cons x _ (by simp), endsInDigit_cons y _ (by simp),
        endsInDigit_cons n1 _ hne]
      exact endsInDigit_of_all rest hd hne
  have hcharset : charsetRegex ('+' :: x :: y :: n1 :: rest) = true := by
    simp only [charsetRegex, hstrip, List.all_cons, Bool.and_eq_true]
    exact ⟨isPhoneBodyChar_of_isDig x hdx, isPhoneBodyChar_of_isDig y hdy,
      isPhoneBodyChar_of_isDig n1 hdn1, List.all_eq_true.mpr hbody⟩
  have hcodereg : codeRegex ('+' :: x :: y :: n1 :: rest) = true := by
    simp only [codeRegex, hstrip]
    refine List.any_eq_true.mpr ⟨[x, y], hmem, ?_⟩
    simp [startsCodeDigit, hdn1]
  unfold validateInternationalPhoneNumber
  rw [if_neg (by simp)]
  rw [hccof]
  simp only [hfilter, ruleFor_len3_not2 x y n1 hx2, hlenreg, hcharset, hcodereg,
    List.length_cons, List.length_nil, List.drop_succ_cons, List.drop_zero]
  simp [stripCC]

/-- C2 (amended): for every entry of the numbering-plan table, a number
`+<code><national>` with an all-digit national number of a listed length
and a listed mobile prefix fully validates (`isValid = true`).  The
mutation half of the original claim survives ONLY for the three-digit
codes 254, 255 and 234: there, changing the national number so that its
leading digits are not a listed mobile prefix turns requirement 5 false
while requirements 1-4 stay true.  For the codes 1, 44, 91, 61, 55, 49
and 81 the greedy `\d{1,3}` country-code extraction reads three digits
(the code plus the start of the national number), which is not a table
key, so the validator takes the unrecognized-country path: requirement 5
stays true — and the number stays fully valid — whatever the mobile
prefix is. -/
theorem phone_table_validation :
    (∀ p ∈ ccTable, ∀ nat : List Char,
        nat.all isDig = true →
        nat.length ∈ p.2.lens →
        nat.take (p.2.mobs.headD []).length ∈ p.2.mobs →
        (validateInternationalPhoneNumber ('+' :: (p.1 ++ nat))).isValid = true) ∧
    (∀ p ∈ ccTable, p.1.length = 3 → ∀ nat : List Char,
        nat.all isDig = true →
        nat.length ∈ p.2.lens →
        nat.take (p.2.mobs.headD []).length ∉ p.2.mobs →
        reqMet (validateInternationalPhoneNumber ('+' :: (p.1 ++ nat))) 4 = false ∧
        reqMet (validateInternationalPhoneNumber ('+' :: (p.1 ++ nat))) 0 = true ∧
        reqMet (validateInternationalPhoneNumber ('+' :: (p.1 ++ nat))) 1 = true ∧
        reqMet (validateInternationalPhoneNumber ('+' :: (p.1 ++ nat))) 2 = true ∧
        reqMet (validateInternationalPhoneNumber ('+' :: (p.1 ++ nat))) 3 = true) ∧
    (∀ p ∈ ccTable, p.1.length ≤ 2 → ∀ nat : List Char,
        nat.all isDig = true →
        nat.length ∈ p.2.lens →
        reqMet (validateInternationalPhoneNumber ('+' :: (p.1 ++ nat))) 4 = true ∧
        (validateInternationalPhoneNumber ('+' :: (p.1 ++ nat))).isValid = true) := by
  refine ⟨?_, ?_, ?_⟩
  · intro p hp nat hdig hlen hpref
    simp only [ccTable, List.mem_cons, List.not_mem_nil, or_false] at hp
    obtain rfl | rfl | rfl | rfl | rfl | rfl | rfl | rfl | rfl | rfl := hp
    · -- USA, code 1, length 10
      simp only at hlen hpref
      simp only [List.mem_cons, List.not_mem_nil, or_false] at hlen
      have hne : nat ≠ [] := by intro h; rw [h] at hlen; simp at hlen
      obtain ⟨n1, t1, rfl⟩ := List.exists_cons_of_ne_nil hne
      have hne1 : t1 ≠ [] := by intro h; rw [h] at hlen; simp at hlen
      obtain ⟨n2, t2, rfl⟩ := List.exists_cons_of_ne_nil hne1
      simp only [List.all_cons, Bool.and_eq_true] at hdig
      obtain ⟨hd1, hd2, hdr⟩ := hdig
      simp only [List.length_cons] at hlen
      simp only [List.cons_append, List.nil_append]
      rw [valPhone_unrec1 '1' n1 n2 t2 rfl (by decide) hd1 hd2 hdr
        (by omega) (by omega) (by decide)]
      have h6 : 6 ≤ t2.length := by omega
      have h14 : t2.length ≤ 14 := by omega
      simp [mkPhoneReqs, h6, h14]
    · -- Kenya, code 254, length 9
      simp only at hlen hpref
      simp only [List.mem_cons, List.not_mem_nil, or_false] at hlen
      simp only [List.cons_append, List.nil_append]
      rw [valPhone_rec3 '2' '5' '4' nat _ rfl rfl rfl hdig (by omega) (by omega)
        rfl (by decide)]
      simp only [mkPhoneReqs]
      simp [hlen]
      simpa using hpref
    · -- Tanzania, code 255, length 9
      simp only at hlen hpref
      simp only [List.mem_cons, List.not_mem_nil, or_false] at hlen
      simp only [List.cons_append, List.nil_append]
      rw [valPhone_rec3 '2' '5' '5' nat _ rfl rfl rfl hdig (by omega) (by omega)
        rfl (by decide)]
      simp only [mkPhoneReqs]
      simp [hlen]
      simpa using hpref
    · -- UK, code 44, length 10
      simp only at hlen hpref
      simp only [List.mem_cons, List.not_mem_nil, or_false] at hlen
      have hne : nat ≠ [] := by intro h; rw [h] at hlen; simp at hlen
      obtain ⟨n1, t1, rfl⟩ := List.exists_cons_of_ne_nil hne
      simp only [List.all_cons, Bool.and_eq_true] at hdig
      obtain ⟨hd1, hdr⟩ := hdig
      simp only [List.length_cons] at hlen
      simp only [List.cons_append, List.nil_append]
      rw [valPhone_unrec2 '4' '4' n1 t1 rfl rfl (by decide) hd1 hdr
        (by omega) (by omega) (by decide)]
      have h6 : 6 ≤ t1.length := by omega
      have h14 : t1.length ≤ 14 := by omega
      simp [mkPhoneReqs, h6, h14]
    · -- India, code 91, length 10
      simp only at hlen hpref
      simp only [List.mem_cons, List.not_mem_nil, or_false] at hlen
      have hne : nat ≠ [] := by intro h; rw [h] at hlen; simp at hlen
      obtain ⟨n1, t1, rfl⟩ := List.exists_cons_of_ne_nil hne
      simp only [List.all_cons, Bool.and_eq_true] at hdig
      obtain ⟨hd1, hdr⟩ := hdig
      simp only [List.length_cons] at hlen
      simp only [List.cons_append, List.nil_append]
      rw [valPhone_unrec2 '9' '1' n1 t1 rfl rfl (by decide) hd1 hdr
        (by omega) (by omega) (by decide)]
      have h6 : 6 ≤ t1.length := by omega
      have h14 : t1.length ≤ 14 := by omega
      simp [mkPhoneReqs, h6, h14]
    · -- Australia, code 61, length 9
      simp only at hlen hpref
      simp only [List.mem_cons, List.not_mem_nil, or_false] at hlen
      have hne : nat ≠ [] := by intro h; rw [h] at hlen; simp at hlen
      obtain ⟨n1, t1, rfl⟩ := List.exists_cons_of_ne_nil hne
      simp only [List.all_cons, Bool.and_eq_true] at hdig
      obtain ⟨hd1, hdr⟩ := hdig
      simp only [List.length_cons] at hlen
      simp only [List.cons_append, List.nil_append]
      rw [valPhone_unrec2 '6' '1' n1 t1 rfl rfl (by decide) hd1 hdr
        (by omega) (by omega) (by decide)]
      have h6 : 6 ≤ t1.length := by omega
      have h14 : t1.length ≤ 14 := by omega
      simp [mkPhoneReqs, h6, h14]
    · -- Nigeria, code 234, length 10
      simp only at hlen hpref
      simp only [List.mem_cons, List.not_mem_nil, or_false] at hlen
      simp only [List.cons_append, List.nil_append]
      rw [valPhone_rec3 '2' '3' '4' nat _ rfl rfl rfl hdig (by omega) (by omega)
        rfl (by decide)]
      simp only [mkPhoneReqs]
      simp [hlen]
      simpa using hpref
    · -- Brazil, code 55, length 10 or 11
      simp only at hlen hpref
      simp only [List.mem_cons, List.not_mem_nil, or_false] at hlen
      have hne : nat ≠ [] := by intro h; rw [h] at hlen; simp at hlen
      obtain ⟨n1, t1, rfl⟩ := List.exists_cons_of_ne_nil hne
      simp only [List.all_cons, Bool.and_eq_true] at hdig
      obtain ⟨hd1, hdr⟩ := hdig
      simp only [List.length_cons] at hlen
      simp only [List.cons_append, List.nil_append]
      rw [valPhone_unrec2 '5' '5' n1 t1 rfl rfl (by decide) hd1 hdr
        (by omega) (by omega) (by decide)]
      have h6 : 6 ≤ t1.length := by omega
      have h14 : t1.length ≤ 14 := by omega
      simp [mkPhoneReqs, h6, h14]
    · -- Germany, code 49, length 10 or 11
      simp only at hlen hpref
      simp only [List.mem_cons, List.not_mem_nil, or_false] at hlen
      have hne : nat ≠ [] := by intro h; rw [h] at hlen; simp at hlen
      obtain ⟨n1, t1, rfl⟩ := List.exists_cons_of_ne_nil hne
      simp only [List.all_cons, Bool.and_eq_true] at hdig
      obtain ⟨hd1, hdr⟩ := hdig
      simp only [List.length_cons] at hlen
      simp only [List.cons_append, List.nil_append]
      rw [valPhone_unrec2 '4' '9' n1 t1 rfl rfl (by decide) hd1 hdr
        (by omega) (by omega) (by decide)]
      have h6 : 6 ≤ t1.length := by omega
      have h14 : t1.length ≤ 14 := by omega
      simp [mkPhoneReqs, h6, h14]
    · -- Japan, code 81, length 10
      simp only at hlen hpref
      simp only [List.mem_cons, List.not_mem_nil, or_false] at hlen
      have hne : nat ≠ [] := by intro h; rw [h] at hlen; simp at hlen
      obtain ⟨n1, t1, rfl⟩ := List.exists_cons_of_ne_nil hne
      simp only [List.all_cons, Bool.and_eq_true] at hdig
      obtain ⟨hd1, hdr⟩ := hdig
      simp only [List.length_cons] at hlen
      simp only [List.cons_append, List.nil_append]
      rw [valPhone_unrec2 '8' '1' n1 t1 rfl rfl (by decide) hd1 hdr
        (by omega) (by omega) (by decide)]
      have h6 : 6 ≤ t1.length := by omega
      have h14 : t1.length ≤ 14 := by omega
      simp [mkPhoneReqs, h6, h14]
  · intro p hp h3 nat hdig hlen hnpref
    simp only [ccTable, List.mem_cons, List.not_mem_nil, or_false] at hp
    obtain rfl | rfl | rfl | rfl | rfl | rfl | rfl | rfl | rfl | rfl := hp
    · simp at h3
    · -- Kenya 254
      simp only at hlen hnpref
      simp only [List.mem_cons, List.not_mem_nil, or_false] at hlen
      simp only [List.cons_append, List.nil_append]
      rw [valPhone_rec3 '2' '5' '4' nat _ rfl rfl rfl hdig (by omega) (by omega)
        rfl (by decide)]
      refine ⟨?_, ?_, ?_, ?_, ?_⟩
      · simp [reqMet, mkPhoneReqs]
        simpa using hnpref
      · simp [reqMet, mkPhoneReqs]
      · simp [reqMet, mkPhoneReqs, hlen]
      · simp [reqMet, mkPhoneReqs]
      · simp [reqMet, mkPhoneReqs]
    · -- Tanzania 255
      simp only at hlen hnpref
      simp only [List.mem_cons, List.not_mem_nil, or_false] at hlen
      simp only [List.cons_append, List.nil_append]
      rw [valPhone_rec3 '2' '5' '5' nat _ rfl rfl rfl hdig (by omega) (by omega)
        rfl (by decide)]
      refine ⟨?_, ?_, ?_, ?_, ?_⟩
      · simp [reqMet, mkPhoneReqs]
        simpa using hnpref
      · simp [reqMet, mkPhoneReqs]
      · simp [reqMet, mkPhoneReqs, hlen]
      · simp [reqMet, mkPhoneReqs]
      · simp [reqMet, mkPhoneReqs]
    · simp at h3
    · simp at h3
    · simp at h3
    · -- Nigeria 234
      simp only at hlen hnpref
      simp only [List.mem_cons, List.not_mem_nil, or_false] at hlen
      simp only [List.cons_append, List.nil_append]
      rw [valPhone_rec3 '2' '3' '4' nat _ rfl rfl rfl hdig (by omega) (by omega)
        rfl (by decide)]
      refine ⟨?_, ?_, ?_, ?_, ?_⟩
      · simp [reqMet, mkPhoneReqs]
        simpa using hnpref
      · simp [reqMet, mkPhoneReqs]
      · simp [reqMet, mkPhoneReqs, hlen]
      · simp [reqMet, mkPhoneReqs]
      · simp [reqMet, mkPhoneReqs]
    · simp at h3
    · simp at h3
    · simp at h3
  · intro p hp hle nat hdig hlen
    simp only [ccTable, List.mem_cons, List.not_mem_nil, or_false] at hp
    obtain rfl | rfl | rfl | rfl | rfl | rfl | rfl | rfl | rfl | rfl := hp
    · -- USA 1
      simp only at hlen
      simp only [List.mem_cons, List.not_mem_nil, or_false] at hlen
      have hne : nat ≠ [] := by intro h; rw [h] at hlen; simp at hlen
      obtain ⟨n1, t1, rfl⟩ := List.exists_cons_of_ne_nil hne
      have hne1 : t1 ≠ [] := by intro h; rw [h] at hlen; simp at hlen
      obtain ⟨n2, t2, rfl⟩ := List.exists_cons_of_ne_nil hne1
      simp only [List.all_cons, Bool.and_eq_true] at hdig
      obtain ⟨hd1, hd2, hdr⟩ := hdig
      simp only [List.length_cons] at hlen
      simp only [List.cons_append, List.nil_append]
      rw [valPhone_unrec1 '1' n1 n2 t2 rfl (by decide) hd1 hd2 hdr
        (by omega) (by omega) (by decide)]
      have h6 : 6 ≤ t2.length := by omega
      have h14 : t2.length ≤ 14 := by omega
      exact ⟨by simp [reqMet, mkPhoneReqs], by simp [mkPhoneReqs, h6, h14]⟩
    · simp at hle
    · simp at hle
    · -- UK 44
      simp only at hlen
      simp only [List.mem_cons, List.not_mem_nil, or_false] at hlen
      have hne : nat ≠ [] := by intro h; rw [h] at hlen; simp at hlen
      obtain ⟨n1, t1, rfl⟩ := List.exists_cons_of_ne_nil hne
      simp only [List.all_cons, Bool.and_eq_true] at hdig
      obtain ⟨hd1, hdr⟩ := hdig
      simp only [List.length_cons] at hlen
      simp only [List.cons_append, List.nil_append]
      rw [valPhone_unrec2 '4' '4' n1 t1 rfl rfl (by decide) hd1 hdr
        (by omega) (by omega) (by decide)]
      have h6 : 6 ≤ t1.length := by omega
      have h14 : t1.length ≤ 14 := by omega
      exact ⟨by simp [reqMet, mkPhoneReqs], by simp [mkPhoneReqs, h6, h14]⟩
    · -- India 91
      simp only at hlen
      simp only [List.mem_cons, List.not_mem_nil, or_false] at hlen
      have hne : nat ≠ [] := by intro h; rw [h] at hlen; simp at hlen
      obtain ⟨n1, t1, rfl⟩ := List.exists_cons_of_ne_nil hne
      simp only [List.all_cons, Bool.and_eq_true] at hdig
      obtain ⟨hd1, hdr⟩ := hdig
      simp only [List.length_cons] at hlen
      simp only [List.cons_append, List.nil_append]
      rw [valPhone_unrec2 '9' '1' n1 t1 rfl rfl (by decide) hd1 hdr
        (by omega) (by omega) (by decide)]
      have h6 : 6 ≤ t1.length := by omega
      have h14 : t1.length ≤ 14 := by omega
      exact ⟨by simp [reqMet, mkPhoneReqs], by simp [mkPhoneReqs, h6, h14]⟩
    · -- Australia 61
      simp only at hlen
      simp only [List.mem_cons, List.not_mem_nil, or_false] at hlen
      have hne : nat ≠ [] := by intro h; rw [h] at hlen; simp at hlen
      obtain ⟨n1, t1, rfl⟩ := List.exists_cons_of_ne_nil hne
      simp only [List.all_cons, Bool.and_eq_true] at hdig
      obtain ⟨hd1, hdr⟩ := hdig
      simp only [List.length_cons] at hlen
      simp only [List.cons_append, List.nil_append]
      rw [valPhone_unrec2 '6' '1' n1 t1 rfl rfl (by decide) hd1 hdr
        (by omega) (by omega) (by decide)]
      have h6 : 6 ≤ t1.length := by omega
      have h14 : t1.length ≤ 14 := by omega
      exact ⟨by simp [reqMet, mkPhoneReqs], by simp [mkPhoneReqs, h6, h14]⟩
    · simp at hle
    · -- Brazil 55
      simp only at hlen
      simp only [List.mem_cons, List.not_mem_nil, or_false] at hlen
      have hne : nat ≠ [] := by intro h; rw [h] at hlen; simp at hlen
      obtain ⟨n1, t1, rfl⟩ := List.exists_cons_of_ne_nil hne
      simp only [List.all_cons, Bool.and_eq_true] at hdig
      obtain ⟨hd1, hdr⟩ := hdig
      simp only [List.length_cons] at hlen
      simp only [List.cons_append, List.nil_append]
      rw [valPhone_unrec2 '5' '5' n1 t1 rfl rfl (by decide) hd1 hdr
        (by omega) (by omega) (by decide)]
      have h6 : 6 ≤ t1.length := by omega
      have h14 : t1.length ≤ 14 := by omega
      exact ⟨by simp [reqMet, mkPhoneReqs], by simp [mkPhoneReqs, h6, h14]⟩
    · -- Germany 49
      simp only at hlen
      simp only [List.mem_cons, List.not_mem_nil, or_false] at hlen
      have hne : nat ≠ [] := by intro h; rw [h] at hlen; simp at hlen
      obtain ⟨n1, t1, rfl⟩ := List.exists_cons_of_ne_nil hne
      simp only [List.all_cons, Bool.and_eq_true] at hdig
      obtain ⟨hd1, hdr⟩ := hdig
      simp only [List.length_cons] at hlen
      simp only [List.cons_append, List.nil_append]
      rw [valPhone_unrec2 '4' '9' n1 t1 rfl rfl (by decide) hd1 hdr
        (by omega) (by omega) (by decide)]
      have h6 : 6 ≤ t1.length := by omega
      have h14 : t1.length ≤ 14 := by omega
      exact ⟨by simp [reqMet, mkPhoneReqs], by simp [mkPhoneReqs, h6, h14]⟩
    · -- Japan 81
      simp only at hlen
      simp only [List.mem_cons, List.not_mem_nil, or_false] at hlen
      have hne : nat ≠ [] := by intro h; rw [h] at hlen; simp at hlen
      obtain ⟨n1, t1, rfl⟩ := List.exists_cons_of_ne_nil hne
      simp only [List.all_cons, Bool.and_eq_true] at hdig
      obtain ⟨hd1, hdr⟩ := hdig
      simp only [List.length_cons] at hlen
      simp only [List.cons_append, List.nil_append]
      rw [valPhone_unrec2 '8' '1' n1 t1 rfl rfl (by decide) hd1 hdr
        (by omega) (by omega) (by decide)]
      have h6 : 6 ≤ t1.length := by omega
      have h14 : t1.length ≤ 14 := by omega
      exact ⟨by simp [reqMet, mkPhoneReqs], by simp [mkPhoneReqs, h6, h14]⟩

/-- C2 counterexample: start from the valid USA number `+12025550123`
(mobile prefix `202`, listed) and mutate one digit of the prefix to get
`+13025550123` (prefix `302`, not in the USA list).  The claim demands
that requirement 5 become false; in the code it remains TRUE, and the
mutated number even stays fully valid, because the greedy `\d{1,3}`
extraction reads the country code as `130`, which is not a table key, so
no mobile-prefix check is performed at all. -/
theorem mobile_mutation_counterexample :
    (validateInternationalPhoneNumber ("+12025550123".data)).isValid = true ∧
    ((ruleFor ['1']).getD ⟨[], []⟩).mobs.contains ['3', '0', '2'] = false ∧
    ccOf ("+13025550123".data) = some ['1', '3', '0'] ∧
    ruleFor ['1', '3', '0'] = none ∧
    reqMet (validateInternationalPhoneNumber ("+13025550123".data)) 4 = true ∧
    (validateInternationalPhoneNumber ("+13025550123".data)).isValid = true := by
  refine ⟨by decide, by decide, by decide, by decide, by decide, by decide⟩

/-- Witness instantiating `phone_table_validation` at concrete inputs:
the Kenyan number `+254712345678` (listed prefix `71`) fully validates,
and the mutated `+254612345678` (unlisted prefix `61`) fails exactly
requirement 5 while requirements 1-4 hold. -/
theorem phone_table_validation_witness :
    (validateInternationalPhoneNumber ("+254712345678".data)).isValid = true ∧
    reqMet (validateInternationalPhoneNumber ("+254612345678".data)) 4 = false ∧
    reqMet (validateInternationalPhoneNumber ("+254612345678".data)) 3 = true := by
  have h1 := phone_table_validation.1
    (['2', '5', '4'], ⟨[9],
      [['7','0'], ['7','1'], ['7','2'], ['7','3'], ['7','4'], ['7','5'], ['7','6'],
       ['7','7'], ['7','8'], ['7','9']]⟩)
    (by decide) ("712345678".data) (by decide) (by decide) (by decide)
  have h2 := phone_table_validation.2.1
    (['2', '5', '4'], ⟨[9],
      [['7','0'], ['7','1'], ['7','2'], ['7','3'], ['7','4'], ['7','5'], ['7','6'],
       ['7','7'], ['7','8'], ['7','9']]⟩)
    (by decide) (by decide) ("612345678".data) (by decide) (by decide) (by decide)
  exact ⟨h1, h2.1, h2.2.2.2.2⟩

/-! ## String cleaner (`cleanString`)

Pipeline of the source: `replace(/\s+/g, ' ')` then `.trim()`, then (when
`removeSpecial`) `replace(/[^\p{L}\p{Number}\s]/gu, '')`, then the case
transform: `toUpperCase`, `toLowerCase`, or the title transform
`replace(/\b\p{L}+\b/gu, w => w.charAt(0).toUpperCase() + w.slice(1).toLowerCase())`
(note that `\b` remains the ASCII word boundary even under the `u` flag).
JavaScript case conversion is a char-to-string map: on the repertoire of
this development it is the ASCII case swap, except that `toUpperCase`
sends U+00DF to `SS` (Unicode SpecialCasing). -/

/-- One maximal whitespace run becomes one space: state `pw` records
whether the previous input character was whitespace. -/
def squeezeGo : Bool → List Char → List Char
  | _, [] => []
  | pw, c :: cs =>
    if isJsWs c then
      (if pw then squeezeGo true cs else ' ' :: squeezeGo true cs)
    else c :: squeezeGo false cs

/-- `replace(/\s+/g, ' ')`. -/
def squeeze (s : List Char) : List Char := squeezeGo false s

/-- Leading-whitespace removal (half of `.trim()`). -/
def trimL (s : List Char) : List Char := s.dropWhile isJsWs

/-- Trailing-whitespace removal (the other half of `.trim()`). -/
def trimR : List Char → List Char
  | [] => []
  | c :: cs =>
    match trimR cs with
    | [] => if isJsWs c then [] else [c]
    | r => c :: r

/-- Whitespace collapsing followed by `.trim()` — the first stage of
`cleanString`. -/
def cleanWS (s : List Char) : List Char := trimR (trimL (squeeze s))

/-- The characters KEPT by the `removeSpecial` step, i.e. the complement
of `[^\p{L}\p{Number}\s]`. -/
def keepCS (c : Char) : Bool := isLetterCat c || isNumberCat c || isJsWs c

/-- ASCII uppercase conversion on a code point (the behaviour of
JavaScript `toUpperCase` on single characters of the repertoire other
than U+00DF). -/
def upChar (c : Char) : Char :=
  if 97 ≤ cp c ∧ cp c ≤ 122 then Char.ofNat (cp c - 32) else c

/-- ASCII lowercase conversion on a code point. -/
def downChar (c : Char) : Char :=
  if 65 ≤ cp c ∧ cp c ≤ 90 then Char.ofNat (cp c + 32) else c

/-- JavaScript `toUpperCase` on one character: `ß` (U+00DF) expands to
`SS` per Unicode SpecialCasing, other characters of the repertoire map
through the ASCII case swap. -/
def jsUpper (c : Char) : List Char :=
  if cp c = 223 then ['S', 'S'] else [upChar c]

/-- JavaScript `toLowerCase` on one character: `İ` (U+0130) expands to
`i` + U+0307 per Unicode SpecialCasing; other characters of the
repertoire map through the ASCII case swap (`ß` is already lowercase and
maps to itself). -/
def jsLower (c : Char) : List Char :=
  if cp c = 304 then ['i', Char.ofNat 775] else [downChar c]

/-- Concatenation of a char-to-string map over a string — the shape of
JavaScript string case conversion. -/
def expandMap (f : Char → List Char) : List Char → List Char
  | [] => []
  | c :: cs => f c ++ expandMap f cs

/-- The ASCII word-character class `\w` = `[A-Za-z0-9_]`, which governs
`\b` even under the `u` flag. -/
def wCharB (c : Char) : Bool := isAlphaA c || isDig c || decide (cp c = 95)

/-- Word-character test seen by `\b` at a string edge (`none` = outside
the string, not a word character). -/
def wOpt : Option Char → Bool
  | some c => wCharB c
  | none => false

/-- Largest `k` with `1 ≤ k ≤ n` such that a `\b` boundary lies between
positions `k-1` and `k` of `s` — the backtracking search for the end of
`\b\p{L}+\b`, greedy first. -/
def findWordEnd (s : List Char) (n : Nat) : Option Nat :=
  ((List.range n).reverse.map (· + 1)).find? fun k =>
    decide (wOpt (s.get? (k - 1)) ≠ wOpt (s.get? k))

/-- The replacement callback of the title transform:
`w.charAt(0).toUpperCase() + w.slice(1).toLowerCase()`. -/
def titleWord (w : List Char) : List Char :=
  match w with
  | [] => []
  | c :: rest => jsUpper c ++ expandMap jsLower rest

/-- Left-to-right scan of `replace(/\b\p{L}+\b/gu, ...)`: `prev` is the
character just before the current position (`none` at the start), `fuel`
bounds the number of scan steps (each step consumes at least one
character, so `length + 1` always suffices). -/
def titleGo : Nat → Option Char → List Char → List Char
  | 0, _, rest => rest
  | _ + 1, _, [] => []
  | fuel + 1, prev, c :: cs =>
    if decide (wOpt prev ≠ wOpt (some c)) && isLetterCat c then
      match findWordEnd (c :: cs) ((c :: cs).takeWhile isLetterCat).length with
      | some k =>
        titleWord ((c :: cs).take k) ++
          titleGo fuel ((c :: cs).take k).getLast? ((c :: cs).drop k)
      | none => c :: titleGo fuel (some c) cs
    else c :: titleGo fuel (some c) cs

/-- The title transform `replace(/\b\p{L}+\b/gu, ...)`. -/
def titleize (s : List Char) : List Char := titleGo (s.length + 1) Option.none s

/-- The case options of `CleanOptions` (the source lowercases the string
value and treats anything unknown as `none`). -/
inductive CaseOpt
  | upper
  | lower
  | title
  | none
deriving DecidableEq

/-- `CleanOptions` with its two fields. -/
structure CleanOpts where
  caseOpt : CaseOpt
  removeSpecial : Bool
deriving DecidableEq

/-- `cleanString` from the source: empty (and non-string) input yields
the empty string; otherwise collapse-and-trim whitespace, optionally drop
the characters of `[^\p{L}\p{Number}\s]`, then apply the case
transform. -/
def cleanString (s : List Char) (o : CleanOpts) : List Char :=
  if s = [] then []
  else
    let c2 := if o.removeSpecial then (cleanWS s).filter keepCS else cleanWS s
    match o.caseOpt with
    | CaseOpt.upper => expandMap jsUpper c2
    | CaseOpt.lower => expandMap jsLower c2
    | CaseOpt.title => titleize c2
    | CaseOpt.none => c2

/-- Canonical-whitespace check, mirroring the state of `squeezeGo`: every
whitespace character is a space, no space follows a space (`pw` = the
previous character was a space). -/
def canonGo : Bool → List Char → Bool
  | _, [] => true
  | pw, c :: cs =>
    if isJsWs c then decide (c = ' ') && !pw && canonGo true cs
    else canonGo false cs

/-- First character (if any) is not whitespace. -/
def headNotWsB (t : List Char) : Bool :=
  match t.head? with
  | some c => !isJsWs c
  | none => true

/-- Last character (if any) is not whitespace. -/
def lastNotWsB (t : List Char) : Bool :=
  match t.getLast? with
  | some c => !isJsWs c
  | none => true

theorem lastNotWsB_cons (x : Char) (l : List Char) (h : l ≠ []) :
    lastNotWsB (x :: l) = lastNotWsB l := by
  unfold lastNotWsB
  rw [List.getLast?_cons, List.getLast?_eq_getLast _ h]
  rfl

theorem canonGo_squeezeGo : ∀ (s : List Char) (pw : Bool),
    canonGo pw (squeezeGo pw s) = true := by
  intro s
  induction s with
  | nil => intro pw; rfl
  | cons c cs ih =>
    intro pw
    by_cases hw : isJsWs c = true
    · rw [squeezeGo, if_pos hw]
      cases pw
      · simp only [Bool.false_eq_true, if_false, canonGo]
        have hsp : isJsWs ' ' = true := rfl
        rw [if_pos hsp]
        simp [ih true]
      · simp only [if_true]
        exact ih true
    · rw [squeezeGo, if_neg hw]
      rw [canonGo, if_neg hw]
      exact ih false

theorem squeezeGo_eq_self : ∀ (s : List Char) (pw : Bool),
    canonGo pw s = true → squeezeGo pw s = s := by
  intro s
  induction s with
  | nil => intro pw _; rfl
  | cons c cs ih =>
    intro pw h
    by_cases hw : isJsWs c = true
    · rw [canonGo, if_pos hw] at h
      simp only [Bool.and_eq_true, Bool.not_eq_true', decide_eq_true_eq] at h
      obtain ⟨⟨hc, hpw⟩, hrest⟩ := h
      subst hc
      subst hpw
      rw [squeezeGo, if_pos hw]
      simp only [Bool.false_eq_true, if_false]
      rw [ih true hrest]
    · rw [canonGo, if_neg hw] at h
      rw [squeezeGo, if_neg hw, ih false h]

theorem canonGo_trimL : ∀ (s : List Char) (pw : Bool),
    canonGo pw s = true → canonGo false (trimL s) = true := by
  intro s
  induction s with
  | nil => intro pw _; rfl
  | cons c cs ih =>
    intro pw h
    by_cases hw : isJsWs c = true
    · rw [canonGo, if_pos hw] at h
      simp only [Bool.and_eq_true, Bool.not_eq_true', decide_eq_true_eq] at h
      rw [trimL, List.dropWhile_cons, if_pos hw]
      exact ih true h.2
    · rw [canonGo, if_neg hw] at h
      rw [trimL, List.dropWhile_cons, if_neg hw]
      rw [canonGo, if_neg hw]
      exact h

theorem headNotWs_trimL : ∀ s : List Char, headNotWsB (trimL s) = true := by
  intro s
  induction s with
  | nil => rfl
  | cons c cs ih =>
    by_cases hw : isJsWs c = true
    · rw [trimL, List.dropWhile_cons, if_pos hw]
      exact ih
    · rw [trimL, List.dropWhile_cons, if_neg hw]
      simp [headNotWsB, hw]

theorem trimL_eq_self (s : List Char) (h : headNotWsB s = true) : trimL s = s := by
  cases s with
  | nil => rfl
  | cons c cs =>
    simp only [headNotWsB, List.head?_cons, Bool.not_eq_true'] at h
    rw [trimL, List.dropWhile_cons, if_neg (by simp [h])]

theorem lastNotWs_trimR : ∀ s : List Char, lastNotWsB (trimR s) = true := by
  intro s
  induction s with
  | nil => rfl
  | cons c cs ih =>
    rw [trimR]
    cases htr : trimR cs with
    | nil =>
      by_cases hw : isJsWs c = true
      · rw [if_pos hw]
        rfl
      · rw [if_neg hw]
        simp [lastNotWsB, hw]
    | cons r0 rs =>
      rw [lastNotWsB_cons c _ (by simp)]
      rw [← htr]
      exact ih

theorem canonGo_trimR : ∀ (s : List Char) (pw : Bool),
    canonGo pw s = true → canonGo pw (trimR s) = true := by
  intro s
  induction s with
  | nil => intro pw _; rfl
  | cons c cs ih =>
    intro pw h
    rw [trimR]
    cases htr : trimR cs with
    | nil =>
      by_cases hw : isJsWs c = true
      · rw [if_pos hw]
        rfl
      · rw [if_neg hw]
        rw [canonGo, if_neg hw]
        rfl
    | cons r0 rs =>
      by_cases hw : isJsWs c = true
      · rw [canonGo, if_pos hw] at h ⊢
        simp only [Bool.and_eq_true] at h ⊢
        refine ⟨h.1, ?_⟩
        rw [← htr]
        exact ih true h.2
      · rw [canonGo, if_neg hw] at h ⊢
        rw [← htr]
        exact ih false h

theorem headNotWs_trimR (s : List Char) (h : headNotWsB s = true) :
    headNotWsB (trimR s) = true := by
  cases s with
  | nil => rfl
  | cons c cs =>
    simp only [headNotWsB, List.head?_cons, Bool.not_eq_true'] at h
    rw [trimR]
    cases trimR cs with
    | nil =>
      rw [if_neg (by simp [h])]
      simp [headNotWsB, h]
    | cons r0 rs => simp [headNotWsB, h]

theorem trimR_eq_self : ∀ s : List Char, lastNotWsB s = true → trimR s = s := by
  intro s
  induction s with
  | nil => intro _; rfl
  | cons c cs ih =>
    intro h
    cases cs with
    | nil =>
      simp only [lastNotWsB, List.getLast?_singleton, Bool.not_eq_true'] at h
      rw [trimR, trimR]
      rw [if_neg (by simp [h])]
    | cons d ds =>
      rw [lastNotWsB_cons c _ (by simp)] at h
      rw [trimR, ih h]

theorem canon_cleanWS (s : List Char) : canonGo false (cleanWS s) = true :=
  canonGo_trimR _ false (canonGo_trimL _ false (canonGo_squeezeGo s false))

theorem headNotWs_cleanWS (s : List Char) : headNotWsB (cleanWS s) = true :=
  headNotWs_trimR _ (headNotWs_trimL _)

theorem lastNotWs_cleanWS (s : List Char) : lastNotWsB (cleanWS s) = true :=
  lastNotWs_trimR _

theorem cleanWS_eq_self (t : List Char) (h1 : canonGo false t = true)
    (h2 : headNotWsB t = true) (h3 : lastNotWsB t = true) : cleanWS t = t := by
  unfold cleanWS squeeze
  rw [squeezeGo_eq_self t false h1, trimL_eq_self t h2, trimR_eq_self t h3]

theorem expandMap_append (f : Char → List Char) (a b : List Char) :
    expandMap f (a ++ b) = expandMap f a ++ expandMap f b := by
  induction a with
  | nil => rfl
  | cons c cs ih => simp [expandMap, ih]

theorem expandMap_ne_nil (f : Char → List Char) (hf : ∀ c, f c ≠ [])
    (t : List Char) (h : t ≠ []) : expandMap f t ≠ [] := by
  cases t with
  | nil => exact absurd rfl h
  | cons c cs =>
    simp only [expandMap, ne_eq, List.append_eq_nil]
    intro hc
    exact hf c hc.1

theorem canonGo_append_nonws : ∀ (w : List Char), w ≠ [] →
    (∀ d ∈ w, isJsWs d = false) → ∀ (pw : Bool) (r : List Char),
    canonGo pw (w ++ r) = canonGo false r := by
  intro w
  induction w with
  | nil => intro h; exact absurd rfl h
  | cons d w' ih =>
    intro _ hall pw r
    have hd : isJsWs d = false := hall d (by simp)
    cases w' with
    | nil =>
      simp only [List.cons_append, List.nil_append]
      rw [canonGo, if_neg (by simp [hd])]
    | cons e w2 =>
      simp only [List.cons_append]
      rw [canonGo, if_neg (by simp [hd])]
      rw [← List.cons_append]
      exact ih (by simp) (fun x hx => hall x (List.mem_cons_of_mem d hx)) false r

theorem canonGo_expandMap (f : Char → List Char)
    (hws : ∀ c, isJsWs c = true → f c = [c])
    (hnws : ∀ c, isJsWs c = false → ∀ d ∈ f c, isJsWs d = false)
    (hne : ∀ c, f c ≠ []) :
    ∀ (t : List Char) (pw : Bool), canonGo pw t = true →
      canonGo pw (expandMap f t) = true := by
  intro t
  induction t with
  | nil => intro pw _; rfl
  | cons c cs ih =>
    intro pw h
    rw [expandMap]
    by_cases hw : isJsWs c = true
    · rw [hws c hw]
      rw [canonGo, if_pos hw] at h
      simp only [List.cons_append, List.nil_append]
      rw [canonGo, if_pos hw]
      simp only [Bool.and_eq_true] at h ⊢
      exact ⟨h.1, ih true h.2⟩
    · have hwf : isJsWs c = false := by simp at hw; exact hw
      rw [canonGo_append_nonws (f c) (hne c) (hnws c hwf) pw _]
      rw [canonGo, if_neg hw] at h
      exact ih false h

theorem headNotWs_expandMap (f : Char → List Char)
    (hnws : ∀ c, isJsWs c = false → ∀ d ∈ f c, isJsWs d = false)
    (hne : ∀ c, f c ≠ [])
    (t : List Char) (h : headNotWsB t = true) : headNotWsB (expandMap f t) = true := by
  cases t with
  | nil => rfl
  | cons c cs =>
    simp only [headNotWsB, List.head?_cons, Bool.not_eq_true'] at h
    obtain ⟨d, fr, hfc⟩ := List.exists_cons_of_ne_nil (hne c)
    rw [expandMap, hfc]
    simp only [List.cons_append]
    simp [headNotWsB, hnws c h d (by rw [hfc]; simp)]

theorem lastNotWsB_append (a b : List Char) (hb : b ≠ []) :
    lastNotWsB (a ++ b) = lastNotWsB b := by
  induction a with
  | nil => rfl
  | cons c cs ih =>
    rw [List.cons_append, lastNotWsB_cons c _ (by simp [hb]), ih]

theorem lastNotWs_expandMap (f : Char → List Char)
    (hnws : ∀ c, isJsWs c = false → ∀ d ∈ f c, isJsWs d = false)
    (hne : ∀ c, f c ≠ []) :
    ∀ t : List Char, lastNotWsB t = true → lastNotWsB (expandMap f t) = true := by
  intro t
  induction t with
  | nil => intro _; rfl
  | cons c cs ih =>
    intro h
    cases cs with
    | nil =>
      simp only [lastNotWsB, List.getLast?_singleton, Bool.not_eq_true'] at h
      rw [expandMap, expandMap, List.append_nil]
      unfold lastNotWsB
      rw [List.getLast?_eq_getLast _ (hne c)]
      simp [hnws c h _ (List.getLast_mem (hne c))]
    | cons d ds =>
      rw [lastNotWsB_cons c _ (by simp)] at h
      rw [expandMap, lastNotWsB_append _ _
        (expandMap_ne_nil f hne _ (by simp))]
      exact ih h

theorem expandMap_fix_idem (f : Char → List Char)
    (hfix : ∀ c, expandMap f (f c) = f c) :
    ∀ t : List Char, expandMap f (expandMap f t) = expandMap f t := by
  intro t
  induction t with
  | nil => rfl
  | cons c cs ih =>
    rw [expandMap, expandMap_append, hfix c, ih]

theorem cp_ofNat (n : Nat) (h : n < 55296) : cp (Char.ofNat n) = n := by
  have hv : n.isValidChar := Or.inl h
  simp only [cp, Char.ofNat, hv, dif_pos]
  rfl

theorem jsUpper_ws (c : Char) (h : isJsWs c = true) : jsUpper c = [c] := by
  simp only [isJsWs, decide_eq_true_eq, List.mem_cons, List.not_mem_nil, or_false] at h
  rw [jsUpper, if_neg (by omega), upChar, if_neg (by omega)]

theorem jsUpper_nonws (c : Char) (h : isJsWs c = false) :
    ∀ d ∈ jsUpper c, isJsWs d = false := by
  intro d hd
  by_cases h223 : cp c = 223
  · rw [jsUpper, if_pos h223] at hd
    simp only [List.mem_cons, List.not_mem_nil, or_false] at hd
    rcases hd with rfl | rfl <;> rfl
  · rw [jsUpper, if_neg h223] at hd
    simp only [List.mem_cons, List.not_mem_nil, or_false] at hd
    subst hd
    by_cases hr : 97 ≤ cp c ∧ cp c ≤ 122
    · rw [upChar, if_pos hr]
      have hcp : cp (Char.ofNat (cp c - 32)) = cp c - 32 := cp_ofNat _ (by omega)
      simp only [isJsWs, decide_eq_false_iff_not, List.mem_cons, List.not_mem_nil,
        or_false, hcp]
      omega
    · rw [upChar, if_neg hr]
      exact h

theorem jsUpper_ne_nil (c : Char) : jsUpper c ≠ [] := by
  rw [jsUpper]
  split <;> simp

theorem jsUpper_char_idem (c : Char) : expandMap jsUpper (jsUpper c) = jsUpper c := by
  by_cases h223 : cp c = 223
  · rw [jsUpper, if_pos h223]
    decide
  · rw [jsUpper, if_neg h223]
    by_cases hr : 97 ≤ cp c ∧ cp c ≤ 122
    · rw [upChar, if_pos hr]
      have hcp : cp (Char.ofNat (cp c - 32)) = cp c - 32 := cp_ofNat _ (by omega)
      rw [expandMap, expandMap, List.append_nil, jsUpper, if_neg (by omega),
        upChar, if_neg (by omega)]
    · rw [upChar, if_neg hr]
      rw [expandMap, expandMap, List.append_nil, jsUpper, if_neg h223,
        upChar, if_neg hr]

theorem jsLower_ws (c : Char) (h : isJsWs c = true) : jsLower c = [c] := by
  simp only [isJsWs, decide_eq_true_eq, List.mem_cons, List.not_mem_nil, or_false] at h
  rw [jsLower, if_neg (by omega), downChar, if_neg (by omega)]

theorem jsLower_nonws (c : Char) (h : isJsWs c = false) :
    ∀ d ∈ jsLower c, isJsWs d = false := by
  intro d hd
  by_cases h304 : cp c = 304
  · rw [jsLower, if_pos h304] at hd
    simp only [List.mem_cons, List.not_mem_nil, or_false] at hd
    rcases hd with rfl | rfl
    · rfl
    · have hcp : cp (Char.ofNat 775) = 775 := cp_ofNat _ (by omega)
      simp only [isJsWs, decide_eq_false_iff_not, List.mem_cons, List.not_mem_nil,
        or_false, hcp]
      omega
  · rw [jsLower, if_neg h304] at hd
    simp only [List.mem_cons, List.not_mem_nil, or_false] at hd
    subst hd
    by_cases hr : 65 ≤ cp c ∧ cp c ≤ 90
    · rw [downChar, if_pos hr]
      have hcp : cp (Char.ofNat (cp c + 32)) = cp c + 32 := cp_ofNat _ (by omega)
      simp only [isJsWs, decide_eq_false_iff_not, List.mem_cons, List.not_mem_nil,
        or_false, hcp]
      omega
    · rw [downChar, if_neg hr]
      exact h

theorem jsLower_ne_nil (c : Char) : jsLower c ≠ [] := by
  rw [jsLower]
  split <;> simp

theorem jsLower_char_idem (c : Char) : expandMap jsLower (jsLower c) = jsLower c := by
  by_cases h304 : cp c = 304
  · rw [jsLower, if_pos h304]
    decide
  · rw [jsLower, if_neg h304]
    by_cases hr : 65 ≤ cp c ∧ cp c ≤ 90
    · rw [downChar, if_pos hr]
      have hcp : cp (Char.ofNat (cp c + 32)) = cp c + 32 := cp_ofNat _ (by omega)
      rw [expandMap, expandMap, List.append_nil, jsLower, if_neg (by omega),
        downChar, if_neg (by omega)]
    · rw [downChar, if_neg hr]
      rw [expandMap, expandMap, List.append_nil, jsLower, if_neg h304,
        downChar, if_neg hr]

theorem cleanString_none_eq (s : List Char) :
    cleanString s ⟨CaseOpt.none, false⟩ = cleanWS s := by
  by_cases hs : s = []
  · subst hs
    rfl
  · rw [cleanString, if_neg hs]
    rfl

theorem cleanString_upper_eq (s : List Char) :
    cleanString s ⟨CaseOpt.upper, false⟩ = expandMap jsUpper (cleanWS s) := by
  by_cases hs : s = []
  · subst hs
    rfl
  · rw [cleanString, if_neg hs]
    rfl

theorem cleanString_lower_eq (s : List Char) :
    cleanString s ⟨CaseOpt.lower, false⟩ = expandMap jsLower (cleanWS s) := by
  by_cases hs : s = []
  · subst hs
    rfl
  · rw [cleanString, if_neg hs]
    rfl

/-- C3 counterexample: `cleanString` is NOT idempotent for every fixed
option value.  With `removeSpecial = true` (any case option — here
`none`), removing a special character that sits between two spaces
leaves a double space that only the NEXT pass collapses:
`cleanString("a ! b")` gives `"a  b"` and a second pass gives `"a b"`.
With `case = title`, a character with an expanding lowercase mapping
breaks idempotence even with `removeSpecial = false`: `cleanString("aİb")`
gives `A` + `i` + U+0307 + `b`, whose second pass also capitalizes the
`b` (the combining dot above is not a word character, so a fresh `\b`
boundary appears before `b`). -/
theorem cleanString_idem_counterexample :
    ¬(cleanString (cleanString ("a ! b".data) ⟨CaseOpt.none, true⟩) ⟨CaseOpt.none, true⟩ =
        cleanString ("a ! b".data) ⟨CaseOpt.none, true⟩) ∧
    ¬(cleanString (cleanString ("aİb".data) ⟨CaseOpt.title, false⟩) ⟨CaseOpt.title, false⟩ =
        cleanString ("aİb".data) ⟨CaseOpt.title, false⟩) ∧
    cleanString ("a ! b".data) ⟨CaseOpt.none, true⟩ = "a  b".data ∧
    cleanString (cleanString ("a ! b".data) ⟨CaseOpt.none, true⟩) ⟨CaseOpt.none, true⟩ =
      "a b".data := by
  refine ⟨by decide, by decide, by decide, by decide⟩

/-- C3 (amended): `cleanString` is idempotent for the option values with
`removeSpecial = false` and case option `none`, `upper` or `lower`.
(With `removeSpecial = true` the special-character removal can create a
double space that only the next pass collapses, and with `title` an
expanding case mapping can shift word boundaries, see the
counterexample.) -/
theorem cleanString_idempotent_amended :
    (∀ s : List Char,
      cleanString (cleanString s ⟨CaseOpt.none, false⟩) ⟨CaseOpt.none, false⟩ =
        cleanString s ⟨CaseOpt.none, false⟩) ∧
    (∀ s : List Char,
      cleanString (cleanString s ⟨CaseOpt.upper, false⟩) ⟨CaseOpt.upper, false⟩ =
        cleanString s ⟨CaseOpt.upper, false⟩) ∧
    (∀ s : List Char,
      cleanString (cleanString s ⟨CaseOpt.lower, false⟩) ⟨CaseOpt.lower, false⟩ =
        cleanString s ⟨CaseOpt.lower, false⟩) := by
  refine ⟨fun s => ?_, fun s => ?_, fun s => ?_⟩
  · rw [cleanString_none_eq, cleanString_none_eq]
    exact cleanWS_eq_self _ (canon_cleanWS s) (headNotWs_cleanWS s) (lastNotWs_cleanWS s)
  · rw [cleanString_upper_eq, cleanString_upper_eq]
    rw [cleanWS_eq_self _
      (canonGo_expandMap jsUpper jsUpper_ws jsUpper_nonws jsUpper_ne_nil _ false
        (canon_cleanWS s))
      (headNotWs_expandMap jsUpper jsUpper_nonws jsUpper_ne_nil _ (headNotWs_cleanWS s))
      (lastNotWs_expandMap jsUpper jsUpper_nonws jsUpper_ne_nil _ (lastNotWs_cleanWS s))]
    exact expandMap_fix_idem jsUpper jsUpper_char_idem _
  · rw [cleanString_lower_eq, cleanString_lower_eq]
    rw [cleanWS_eq_self _
      (canonGo_expandMap jsLower jsLower_ws jsLower_nonws jsLower_ne_nil _ false
        (canon_cleanWS s))
      (headNotWs_expandMap jsLower jsLower_nonws jsLower_ne_nil _ (headNotWs_cleanWS s))
      (lastNotWs_expandMap jsLower jsLower_nonws jsLower_ne_nil _ (lastNotWs_cleanWS s))]
    exact expandMap_fix_idem jsLower jsLower_char_idem _

/-! ## Tokenizer (`tokenizeText`)

Six independent global scans over the same text: `\p{L}+`,
`\d+(?:\.\d+)?`, `[^\p{L}\p{Number}\s]` (one character per match),
`#[\p{L}\d_]+`, `@[\p{L}\d_]+`, and
`(?:https?:\/\/|www\.)[\p{L}\d\-._~:\/?#\[\]@!$&'()*+,;=]+`.
A global scan emits non-overlapping leftmost matches: after a match the
scan resumes right after it, after a failed attempt it advances one
character.  Every scanner below takes a fuel argument; each step consumes
at least one character, so `length + 1` fuel always suffices. -/

/-- Maximal runs of characters satisfying `p` — the global scan of a
`[class]+` regex. -/
def scanRuns (p : Char → Bool) : Nat → List Char → List (List Char)
  | 0, _ => []
  | _ + 1, [] => []
  | fuel + 1, c :: cs =>
    if p c then
      ((c :: cs).takeWhile p) :: scanRuns p fuel ((c :: cs).dropWhile p)
    else scanRuns p fuel cs

/-- The global scan of `\d+(?:\.\d+)?`: a greedy digit run, optionally
extended by a dot and a second greedy digit run when a digit follows the
dot. -/
def scanNumbers : Nat → List Char → List (List Char)
  | 0, _ => []
  | _ + 1, [] => []
  | fuel + 1, c :: cs =>
    if isDig c then
      match (c :: cs).dropWhile isDig with
      | '.' :: r2 =>
        match r2 with
        | d :: _ =>
          if isDig d then
            ((c :: cs).takeWhile isDig ++ '.' :: r2.takeWhile isDig) ::
              scanNumbers fuel (r2.dropWhile isDig)
          else ((c :: cs).takeWhile isDig) :: scanNumbers fuel ('.' :: r2)
        | [] => ((c :: cs).takeWhile isDig) :: scanNumbers fuel ['.']
      | rest => ((c :: cs).takeWhile isDig) :: scanNumbers fuel rest
    else scanNumbers fuel cs

/-- The tag-character class `[\p{L}\d_]`. -/
def isTagChar (c : Char) : Bool := isLetterCat c || isDig c || decide (cp c = 95)

/-- The global scan of `#[\p{L}\d_]+` or `@[\p{L}\d_]+`. -/
def scanTag (mark : Char) : Nat → List Char → List (List Char)
  | 0, _ => []
  | _ + 1, [] => []
  | fuel + 1, c :: cs =>
    if c = mark then
      match cs with
      | d :: _ =>
        if isTagChar d then
          (mark :: cs.takeWhile isTagChar) :: scanTag mark fuel (cs.dropWhile isTagChar)
        else scanTag mark fuel cs
      | [] => scanTag mark fuel cs
    else scanTag mark fuel cs

/-- The URL-body class `[\p{L}\d\-._~:\/?#\[\]@!$&'()*+,;=]`. -/
def isUrlChar (c : Char) : Bool :=
  isLetterCat c || isDig c ||
    decide (cp c ∈ ([45, 46, 95, 126, 58, 47, 63, 35, 91, 93, 64, 33, 36, 38,
      39, 40, 41, 42, 43, 44, 59, 61] : List Nat))

/-- The alternation `https?:\/\/|www\.` at the current position (the
optional `s` is greedy, so `https://` is preferred; the branches cannot
overlap otherwise). -/
def urlHead (s : List Char) : Option (List Char × List Char) :=
  if s.take 8 = "https://".data then some ("https://".data, s.drop 8)
  else if s.take 7 = "http://".data then some ("http://".data, s.drop 7)
  else if s.take 4 = "www.".data then some ("www.".data, s.drop 4)
  else none

/-- The global scan of the URL regex. -/
def scanUrls : Nat → List Char → List (List Char)
  | 0, _ => []
  | _ + 1, [] => []
  | fuel + 1, c :: cs =>
    match urlHead (c :: cs) with
    | some (hd, rest) =>
      match rest with
      | d :: _ =>
        if isUrlChar d then
          (hd ++ rest.takeWhile isUrlChar) :: scanUrls fuel (rest.dropWhile isUrlChar)
        else scanUrls fuel cs
      | [] => scanUrls fuel cs
    | none => scanUrls fuel cs

/-- The result record of `tokenizeText`. -/
structure TokenizedText where
  words : List (List Char)
  numbers : List (List Char)
  punctuation : List (List Char)
  hashtags : List (List Char)
  mentions : List (List Char)
  urls : List (List Char)
deriving DecidableEq

/-- `tokenizeText` from the source: six independent scans (empty and, in
the source, non-string input yield six empty sequences). -/
def tokenizeText (s : List Char) : TokenizedText :=
  if s = [] then ⟨[], [], [], [], [], []⟩
  else
    ⟨scanRuns isLetterCat (s.length + 1) s,
     scanNumbers (s.length + 1) s,
     (s.filter fun c => !(isLetterCat c || isNumberCat c || isJsWs c)).map fun c => [c],
     scanTag '#' (s.length + 1) s,
     scanTag '@' (s.length + 1) s,
     scanUrls (s.length + 1) s⟩

/-- C4 counterexample: on the specification's example text the `words`
sequence also contains `user`, `coding`, `https`, `example`, `com` (the
six scans are independent, so letter runs inside mentions, hashtags and
URLs are matched again by `\p{L}+`), and the `punctuation` sequence also
contains the decimal dot, `@`, `#`, the colon, both slashes and the
URL dot — the claimed outputs `words = [Hello, world, and]` and
`punctuation = [",", "!"]` are wrong. -/
theorem tokenizeText_example_counterexample :
    (tokenizeText ("Hello, world! 123.45 and @user #coding https://example.com".data)).words ≠
      ["Hello".data, "world".data, "and".data] ∧
    (tokenizeText ("Hello, world! 123.45 and @user #coding https://example.com".data)).punctuation ≠
      [",".data, "!".data] := by
  refine ⟨by decide, by decide⟩

/-- C4 (amended): the exact output of `tokenizeText` on the example
text —  `numbers`, `hashtags`, `mentions` and `urls` are as the claim
states, while `words` additionally contains the letter runs of the
mention, the hashtag and the URL, and `punctuation` contains every
non-letter, non-digit, non-whitespace character of the text, one match
per character, in order. -/
theorem tokenizeText_example :
    tokenizeText ("Hello, world! 123.45 and @user #coding https://example.com".data) =
      ⟨["Hello".data, "world".data, "and".data, "user".data, "coding".data,
        "https".data, "example".data, "com".data],
       ["123.45".data],
       [",".data, "!".data, ".".data, "@".data, "#".data, ":".data, "/".data,
        "/".data, ".".data],
       ["#coding".data],
       ["@user".data],
       ["https://example.com".data]⟩ := by
  decide
